import Mathlib

/-!
# Baidu Netdisk driver: the chunked upload pipeline of `Put`

A shallow embedding of `drivers/baidu_netdisk/driver.go`: slice arithmetic, the
hashing loop, the precreate / slice transfer / create protocol of `Put`,
`uploadSlice` and the thread-count validation of `Init`.

Conventions.
* `int64` and `int` values are `Int`; every value that occurs stays far inside
  the 64-bit range for sizes in `[0, 2^63)`, which theorems state as a hypothesis.
* A finite `float64` is the rational it denotes; `roundF64` is IEEE-754
  round-to-nearest-even onto a 53-bit significand (the exponent range is not
  modelled: no value here leaves the normal range).
* A hasher is the list of bytes written to it since it was created or reset;
  the digest function itself is a parameter.
* The transfer phase is the interleaving of the loop of `Put` with the tasks in the
  pool of the group, one step at a time; which goroutine takes the next step is
  decided by a scheduler that is a parameter, and the theorems hold for every
  scheduler and every pool width.
-/

namespace baidu_netdisk

/-! ## Constants -/

/-- `const DefaultSliceSize int64 = 4 * 1024 * 1024`. -/
def DefaultSliceSize : Int := 4 * 1024 * 1024

/-- `const SliceSize int64 = 256 * 1024`, the window of the head hash. -/
def SliceSize : Int := 256 * 1024

/-! ## `float64` arithmetic -/

/-- Round a rational to the nearest integer, ties to the even one. -/
def roundHalfEven (m : ℚ) : Int :=
  let f := Int.floor m
  let d := m - f
  if d < 1 / 2 then f
  else if 1 / 2 < d then f + 1
  else if f % 2 = 0 then f else f + 1

/-- Round a rational to the nearest `float64` (53-bit significand, ties to even).
The unit in the last place of `q` is `2 ^ (⌊log₂ |q|⌋ - 52)`. -/
def roundF64 (q : ℚ) : ℚ :=
  if q = 0 then 0
  else
    let ulp : ℚ := 2 ^ (Int.log 2 |q| - 52)
    (if q < 0 then -1 else 1) * (roundHalfEven (|q| / ulp) : ℚ) * ulp

/-- Go conversion `float64(n)` of an integer. -/
def float64 (n : Int) : ℚ := roundF64 (n : ℚ)

/-- Go `x / y` on `float64` operands (`y ≠ 0`). -/
def fdiv (x y : ℚ) : ℚ := roundF64 (x / y)

/-- Go `math.Ceil`: the least integral value not below `x` (always representable). -/
def mathCeil (x : ℚ) : ℚ := (Int.ceil x : ℚ)

/-- Go `math.Max` on finite operands. -/
def mathMax (x y : ℚ) : ℚ := if x < y then y else x

/-- Go conversion `int(x)` of a `float64`: truncation toward zero (64-bit `int`). -/
def toInt (x : ℚ) : Int := if 0 ≤ x then Int.floor x else Int.ceil x

/-! ## Slice arithmetic of `Put` (driver.go, lines 154-159) -/

/-- The local `count` of `Put`:
`int(math.Max(math.Ceil(float64(streamSize)/float64(DefaultSliceSize)), 1))`. -/
def Put.count (streamSize : Int) : Int :=
  toInt (mathMax (mathCeil (fdiv (float64 streamSize) (float64 DefaultSliceSize))) 1)

/-- The local `lastBlockSize` of `Put`: `streamSize % DefaultSliceSize` (Go's truncated
remainder), replaced by `DefaultSliceSize` when it is zero and `streamSize > 0`. -/
def Put.lastBlockSize (streamSize : Int) : Int :=
  let lastBlockSize := Int.tmod streamSize DefaultSliceSize
  if streamSize > 0 ∧ lastBlockSize = 0 then DefaultSliceSize else lastBlockSize

/-- The slice count in the words of the specification:
`max(ceil(size / sliceSize), 1)` with the exact ceiling. -/
def specSliceCount (size : Int) : Int :=
  max (Int.ceil ((size : ℚ) / (DefaultSliceSize : ℚ))) 1

/-! ## Hash writers -/

/-- Bytes of the staged file and of hash inputs. -/
abbrev Byte := UInt8

/-- Errors that `Put`, `uploadSlice` and `Init` can return. -/
inductive Err where
  /-- `ctx.Err()` and the cause of a cancelled group context. -/
  | canceled
  /-- An error reported by a collaborator (staging, HTTP transport, remote API). -/
  | remote (code : Nat)
  /-- `errs.StreamIncomplete`, built by `uploadSlice`. -/
  | streamIncomplete
  deriving DecidableEq, Repr

/-- A `hash.Hash` as returned by `md5.New()`: the bytes written since creation or the
last `Reset`. `Sum(nil)` is the digest of exactly these bytes. -/
structure Hash where
  written : List Byte
  deriving DecidableEq, Repr

/-- `md5.New()`. -/
def Hash.New : Hash := ⟨[]⟩

/-- `h.Write(p)`. -/
def Hash.Write (h : Hash) (p : List Byte) : Hash := ⟨h.written ++ p⟩

/-- `h.Reset()`. -/
def Hash.Reset (_h : Hash) : Hash := ⟨[]⟩

/-- `h.Sum(nil)`, for the digest function `md5`. -/
def Hash.Sum (md5 : List Byte → List Byte) (h : Hash) : List Byte := md5 h.written

/-- One lower-case hexadecimal digit. -/
def hexDigit (n : Nat) : Char :=
  if n < 10 then Char.ofNat (48 + n) else Char.ofNat (87 + n)

/-- `hex.EncodeToString`. -/
def hexEncodeToString (bs : List Byte) : String :=
  String.mk (bs.flatMap fun b => [hexDigit (b.toNat / 16), hexDigit (b.toNat % 16)])

/-- Modelled from the spec: `utils.LimitWriter` (pkg/utils, not among the sources). The
wrapped writer is fed only while fewer than `limit` bytes have passed through in total;
everything after is dropped, and every write is reported as complete. -/
structure limitWriter where
  w : Hash
  limit : Int
  deriving DecidableEq, Repr

/-- Modelled from the spec: `utils.LimitWriter(w, limit)`. -/
def LimitWriter (w : Hash) (limit : Int) : limitWriter := ⟨w, limit⟩

/-- Modelled from the spec: one `Write` on a limit writer, passing on at most the
remaining allowance. -/
def limitWriter.Write (l : limitWriter) (p : List Byte) : limitWriter :=
  if 0 < l.limit then
    let p1 := p.take l.limit.toNat
    { w := l.w.Write p1, limit := l.limit - (p1.length : Int) }
  else l

/-- The three writers behind `io.MultiWriter(fileMd5H, sliceMd5H, slicemd5H2Write)`. -/
structure Writers where
  fileMd5H : Hash
  sliceMd5H : Hash
  slicemd5H2Write : limitWriter
  deriving DecidableEq, Repr

/-- One `Write` on the multi-writer: the same bytes go to each writer in turn. -/
def Writers.Write (ws : Writers) (p : List Byte) : Writers :=
  { fileMd5H := ws.fileMd5H.Write p
    sliceMd5H := ws.sliceMd5H.Write p
    slicemd5H2Write := ws.slicemd5H2Write.Write p }

/-! ## `io.CopyN` from the staged file -/

/-- Buffer size of `io.Copy`. -/
def copyBufSize : Nat := 32 * 1024

/-- The copy loop of `io.Copy`: the source is written out in buffer-sized pieces.
`fuel` bounds the number of reads. -/
def copyBuffer (size : Nat) (ws : Writers) : Nat → List Byte → Writers
  | 0, _ => ws
  | fuel + 1, src =>
    if src = [] then ws
    else copyBuffer size (ws.Write (src.take size)) fuel (src.drop size)

/-- `io.CopyN(dst, tempFile, n)` with the file's read offset at `offset`: copies the next
`n` bytes, or those left before the end of the file, and returns the writers and the
number of bytes copied. The buffer is `min(32 KiB, n)` bytes, one byte when `n < 1`.
Reading the staged file does not fail; a short copy is the `io.EOF` that `Put` ignores. -/
def CopyN (ws : Writers) (tempFile : List Byte) (offset : Nat) (n : Int) : Writers × Nat :=
  let src := (tempFile.drop offset).take n.toNat
  let size := if n < 1 then 1 else min copyBufSize n.toNat
  (copyBuffer size ws src.length src, src.length)

/-! ## The hashing loop of `Put` (driver.go, lines 161-186) -/

/-- Variables of the hashing loop. `offset` is the read position of `tempFile`. -/
structure HashVars where
  offset : Nat
  byteSize : Int
  blockList : List String
  ws : Writers
  deriving DecidableEq, Repr

/-- `for i := 1; i <= count; i++ { ... }`. `isCanceled i` is what
`utils.IsCanceled(ctx)` answers in iteration `i`. `none` means the fuel ran out before the
loop condition failed. -/
def hashLoop (md5 : List Byte → List Byte) (isCanceled : Int → Bool) (tempFile : List Byte)
    (count lastBlockSize : Int) : Nat → Int → HashVars → Option (Except Err HashVars)
  | 0, i, v => if i ≤ count then none else some (.ok v)
  | fuel + 1, i, v =>
    if i ≤ count then
      if isCanceled i then some (.error Err.canceled)
      else
        let byteSize := if i = count then lastBlockSize else v.byteSize
        let r := CopyN v.ws tempFile v.offset byteSize
        let blockList := v.blockList ++ [hexEncodeToString (r.1.sliceMd5H.Sum md5)]
        hashLoop md5 isCanceled tempFile count lastBlockSize fuel (i + 1)
          { offset := v.offset + r.2
            byteSize := byteSize
            blockList := blockList
            ws := { r.1 with sliceMd5H := r.1.sliceMd5H.Reset } }
    else some (.ok v)

/-- What the hashing pass hands to the rest of `Put`. -/
structure HashBundle where
  count : Int
  lastBlockSize : Int
  blockList : List String
  contentMd5 : String
  sliceMd5 : String
  /-- Final state of the limit writer in front of `sliceMd5H2`. -/
  slicemd5H2Write : limitWriter
  /-- Bytes that went into `fileMd5H`. -/
  fileMd5H : Hash
  deriving DecidableEq, Repr

/-- Lines 154-186 of `Put`: slice arithmetic, then the hashing loop over the staged file,
then the two final digests. -/
def Put.hashes (md5 : List Byte → List Byte) (isCanceled : Int → Bool) (tempFile : List Byte)
    (streamSize : Int) : Option (Except Err HashBundle) :=
  let count := Put.count streamSize
  let lastBlockSize := Put.lastBlockSize streamSize
  let init : HashVars :=
    { offset := 0
      byteSize := DefaultSliceSize
      blockList := []
      ws := { fileMd5H := Hash.New
              sliceMd5H := Hash.New
              slicemd5H2Write := LimitWriter Hash.New SliceSize } }
  match hashLoop md5 isCanceled tempFile count lastBlockSize count.toNat 1 init with
  | none => none
  | some (.error e) => some (.error e)
  | some (.ok v) =>
    some (.ok
      { count := count
        lastBlockSize := lastBlockSize
        blockList := v.blockList
        contentMd5 := hexEncodeToString (v.ws.fileMd5H.Sum md5)
        sliceMd5 := hexEncodeToString (v.ws.slicemd5H2Write.w.Sum md5)
        slicemd5H2Write := v.ws.slicemd5H2Write
        fileMd5H := v.ws.fileMd5H })

/-! ## `uploadSlice` (driver.go, lines 258-274) -/

/-- Body of a slice-transfer response, as far as `uploadSlice` looks at it: the integer
that `utils.Json.Get(body, key).ToInt()` reads for each top-level key that is present. -/
abbrev ResponseBody := List (String × Int)

/-- `utils.Json.Get(res.Body(), key).ToInt()`: a key that is absent reads as `0`. -/
def jsonGetInt (body : ResponseBody) (key : String) : Int :=
  (body.lookup key).getD 0

/-- `uploadSlice`, given the outcome of the multipart POST: a transport error is returned
as it is; otherwise the two error codes of the response decide. `none` is Go's `nil`. -/
def uploadSlice (post : Except Err ResponseBody) : Option Err :=
  match post with
  | .error err => some err
  | .ok body =>
    let errCode := jsonGetInt body "error_code"
    let errNo := jsonGetInt body "errno"
    if errCode ≠ 0 ∨ errNo ≠ 0 then some Err.streamIncomplete else none

/-! ## `Init` (driver.go, lines 43-53) -/

/-- The fields of `BaiduNetdisk` that `Init` and `Put` use. `UploadThread` and
`AccessToken` belong to the embedded `Addition`. -/
structure BaiduNetdisk where
  UploadThread : String
  AccessToken : String
  uploadThread : Int
  deriving DecidableEq, Repr

/-- Value of a decimal digit character, if it is one. -/
def digitVal (c : Char) : Option Nat :=
  if 48 ≤ c.toNat ∧ c.toNat ≤ 57 then some (c.toNat - 48) else none

/-- The digits of a string as a number; `none` if a character is not a decimal digit. -/
def parseDigits : List Char → Nat → Option Nat
  | [], acc => some acc
  | c :: cs, acc =>
    match digitVal c with
    | none => none
    | some v => parseDigits cs (acc * 10 + v)

/-- An optional leading sign: whether it is `-`, and the rest of the string. -/
def splitSign : List Char → Bool × List Char
  | '-' :: cs => (true, cs)
  | '+' :: cs => (false, cs)
  | cs => (false, cs)

/-- The digits after the sign as an `int64`: the value and whether an error is returned.
On a syntax error the value is `0`, on a range error it is the nearest bound of `int64`. -/
def parseSigned (neg : Bool) (ds : List Char) : Int × Bool :=
  if ds = [] then (0, true)
  else
    match parseDigits ds 0 with
    | none => (0, true)
    | some un =>
      if neg = false ∧ 2 ^ 63 ≤ un then (2 ^ 63 - 1, true)
      else if neg = true ∧ 2 ^ 63 < un then (-(2 ^ 63), true)
      else (if neg then -(un : Int) else (un : Int), false)

/-- Go's `strconv.Atoi` for a 64-bit `int`: the value and whether an error is returned.
An optional sign is followed by at least one decimal digit. -/
def Atoi (s : String) : Int × Bool :=
  parseSigned (splitSign s.toList).1 (splitSign s.toList).2

/-- `Init`: the worker count is read from `UploadThread` and replaced by the default when
it is outside `[1, 32]`; then the account is queried, whose error is returned. `get` is
the outcome of `d.get("/xpan/nas", ...)`. -/
def Init (d : BaiduNetdisk) (get : Option Err) : BaiduNetdisk × Option Err :=
  let d1 := { d with uploadThread := (Atoi d.UploadThread).1 }
  let d2 :=
    if d1.uploadThread < 1 ∨ d1.uploadThread > 32 then
      { d1 with uploadThread := 3, UploadThread := "3" }
    else d1
  (d2, get)

/-! ## `Put` (driver.go, lines 144-257) -/

/-- The fields of `PrecreateResp` that `Put` reads; `File` is the remote file
descriptor type. -/
structure PrecreateResp (File : Type) where
  ReturnType : Int
  File : File
  Uploadid : String
  BlockList : List Int

/-- Requests that `Put` sends to the remote service, in the order sent. -/
inductive Call where
  /-- `d.post("/xpan/file", {method: precreate}, data, ...)` with the fields of `data`. -/
  | precreate (path : String) (size : Int) (blockListStr contentMd5 sliceMd5 : String)
  /-- One run of `uploadSlice`: query parameters `path`, `uploadid`, `partseq`, and the
  bytes of the section reader that forms the body. -/
  | uploadSlice (path uploadid : String) (partseq : Int) (file : List Byte)
  /-- `d.create(rawPath, streamSize, 0, uploadid, blockListStr, ...)`. -/
  | create (rawPath : String) (size : Int) (uploadid blockListStr : String)
  deriving DecidableEq, Repr

/-- The incoming `model.FileStreamer`. -/
structure Stream where
  name : String
  size : Int
  deriving DecidableEq, Repr

/-- Everything outside `driver.go` that `Put` talks to. -/
structure Env (File Obj : Type) where
  /-- The digest computed by `crypto/md5`. -/
  md5 : List Byte → List Byte
  /-- `fileToObj`. -/
  fileToObj : File → Obj
  /-- `encodeURIComponent`. -/
  encodeURIComponent : String → String
  /-- `stdpath.Join`. -/
  join : String → String → String
  /-- `utils.CreateTempFile(stream.GetReadCloser(), stream.GetSize())`: the staged
  bytes, or the error. -/
  createTempFile : Except Err (List Byte)
  /-- `utils.IsCanceled(ctx)` in iteration `i` of the hashing loop. -/
  hashCanceled : Int → Bool
  /-- Outcome of the precreate request. -/
  post : Call → Except Err (PrecreateResp File)
  /-- Whether the caller has cancelled `ctx` when the upload loop reaches the entry of
  `BlockList` at this position. -/
  uploadCanceled : Nat → Bool
  /-- Outcome of the multipart POST for the entry of `BlockList` at a position, in a
  given attempt (`0`, `1`, `2`). -/
  transfer : Nat → Nat → Except Err ResponseBody
  /-- Outcome of the create request. -/
  create : Call → Except Err File
  /-- The scheduler of the transfer phase: at step `t` of the phase, which of the goroutines
  that can take a step takes the next one (reduced modulo their number; the loop of `Put`
  comes first, then the tasks in the pool in the order they were started). -/
  schedule : Nat → Nat

/-- Go's wrap-around of an `int64` product. -/
def wrapInt64 (x : Int) : Int := (x + 2 ^ 63) % 2 ^ 64 - 2 ^ 63

/-- `utils.Json.MarshalToString(blockList)` for a list of hexadecimal strings. -/
def marshalToString (blockList : List String) : String :=
  "[" ++ ",".intercalate (blockList.map fun s => "\"" ++ s ++ "\"") ++ "]"

/-- The bytes an `io.NewSectionReader(tempFile, offset, byteSize)` delivers. -/
def sectionRead (tempFile : List Byte) (offset byteSize : Int) : List Byte :=
  if offset < 0 then [] else (tempFile.drop offset.toNat).take byteSize.toNat

/-- Lines 225-228: offset and length of the slice `partseq`. -/
def Put.sliceRange (count lastBlockSize partseq : Int) : Int × Int :=
  let offset := wrapInt64 (partseq * DefaultSliceSize)
  let byteSize := if partseq + 1 = count then lastBlockSize else DefaultSliceSize
  (offset, byteSize)

/-- Line 242: the value handed to `up`, with Go's truncating division. -/
def Put.progress (success len : Int) : Int := Int.tdiv (success * 100) len

/-- Where one run of the function handed to `threadG.Go` (lines 229-244) stands. -/
inductive TaskPc where
  /-- At line 238: `d.uploadSlice(...)` runs next. -/
  | uploading
  /-- At line 242, after `uploadSlice` has returned `nil`: `threadG.Success()` is read
  next. -/
  | uploaded
  /-- At line 242, with the count `success` read: `up` is called next. -/
  | loaded (success : Int)
  /-- At line 243: `up` has returned; the function returns `nil` next. -/
  | returning
  deriving DecidableEq, Repr

/-- What one step of the task function does. -/
structure TaskStep where
  /-- Requests sent in this step. -/
  calls : List Call
  /-- Values passed to `up` in this step. -/
  up : List Int
  /-- Where the function goes on; `none` when it has returned. -/
  next : Option TaskPc
  /-- The error returned, when the function has returned. -/
  err : Option Err
  deriving DecidableEq, Repr

/-- One step of the function handed to `threadG.Go` (lines 229-244) for the slice `partseq`
with body `file`: `uploadSlice` and the return of its error; the read of
`threadG.Success()`, whose current value is `success`; the call of `up`; the return of
`nil`. `post` is the outcome of the multipart POST of this run. The read of the count and
the call of `up` are steps of their own: other goroutines can run between them. -/
def Put.taskStep (post : Except Err ResponseBody) (path uploadid : String) (partseq : Int)
    (file : List Byte) (success len : Int) : TaskPc → TaskStep
  | .uploading =>
    match uploadSlice post with
    | some err => ⟨[Call.uploadSlice path uploadid partseq file], [], none, some err⟩
    | none => ⟨[Call.uploadSlice path uploadid partseq file], [], some .uploaded, none⟩
  | .uploaded => ⟨[], [], some (.loaded success), none⟩
  | .loaded s => ⟨[], [Put.progress s len], some .returning, none⟩
  | .returning => ⟨[], [], none, none⟩

/-- A task in the pool of the group: the entry of `BlockList` it was started for, the body
of its request, the number of the current attempt and where that attempt stands. -/
structure Task where
  /-- Position in `precreateResp.BlockList`. -/
  idx : Nat
  partseq : Int
  /-- The bytes of `io.NewSectionReader(tempFile, offset, byteSize)`. -/
  file : List Byte
  /-- Attempts of `retry.Do` that have failed so far. -/
  attempt : Nat
  pc : TaskPc
  deriving DecidableEq, Repr

/-- Where the loop of lines 220-248 stands. -/
inductive MainPc where
  /-- At the head of the `for ... range precreateResp.BlockList` loop. -/
  | ranging
  /-- Inside `threadG.Go` for the current entry, which returns once the pool has room. -/
  | going
  /-- In `threadG.Wait()`. -/
  | waiting
  deriving DecidableEq, Repr

/-- Variables of the transfer phase. -/
structure UploadVars where
  /-- Entries of `BlockList` the loop has passed. -/
  next : Nat
  main : MainPc
  /-- The counter behind `threadG.Success()`. -/
  success : Int
  /-- The cause with which `upCtx` was cancelled, if it was: `threadG.Wait()` returns it. -/
  cause : Option Err
  /-- The tasks in the pool, in the order they were started. -/
  running : List Task
  /-- The values passed to `up`, in call order. -/
  progress : List Int
  /-- The requests sent, in order. -/
  calls : List Call
  deriving DecidableEq, Repr

/-- Modelled from the spec: whether the pool of `errgroup.NewGroupWithContext(ctx,
d.uploadThread, ...)` (pkg/errgroup, not among the sources) has room for one more task: a
worker pool of width `t` has room while fewer than `t` tasks run. The spec gives the width
for `t` in `[1, 32]` only; for a width that is not positive (a driver on which `Init` has
not run) no bound is put on the pool. -/
def poolHasRoom (uploadThread : Int) (running : List Task) : Bool :=
  decide (uploadThread ≤ 0 ∨ (running.length : Int) < uploadThread)

/-- One step of the loop of lines 220-248. At the head of the loop: past the last entry the
loop ends and `threadG.Wait()` is entered; `utils.IsCanceled(upCtx)` ends it early (`upCtx`
is cancelled when the group is, or when the caller cancels `ctx`); otherwise
`threadG.Go` is entered. Inside `threadG.Go` (taken only when the pool has room): the task
for `partseq` is started with the section of lines 225-228 and 238. -/
def Put.mainStep (uploadCanceled : Nat → Bool) (tempFile : List Byte)
    (count lastBlockSize : Int) (blockList : List Int) (v : UploadVars) : UploadVars :=
  match v.main with
  | .ranging =>
    match blockList[v.next]? with
    | none => { v with main := .waiting }
    | some _ =>
      if v.cause.isSome then { v with main := .waiting }
      else if uploadCanceled v.next then { v with main := .waiting, cause := some Err.canceled }
      else { v with main := .going }
  | .going =>
    match blockList[v.next]? with
    | none => { v with main := .waiting }
    | some partseq =>
      let r := Put.sliceRange count lastBlockSize partseq
      { v with
        main := .ranging
        next := v.next + 1
        running := v.running ++ [⟨v.next, partseq, sectionRead tempFile r.1 r.2, 0, .uploading⟩] }
  | .waiting => v

/-- Modelled from the spec: one step of task `j` of the pool under `errgroup.Group.Go`
(pkg/errgroup, not among the sources) with `retry.Attempts(3)`. The task function takes
its next step (`Put.taskStep`). When it returns `nil` the slice is complete: the
completed-slice count is incremented and the task leaves the pool. When it returns an error
it is run again, up to three attempts in all; after the third the slice has failed, the
group context is cancelled with that error unless it is cancelled already, and the task
leaves the pool. -/
def Put.groupStep (transfer : Nat → Nat → Except Err ResponseBody) (path uploadid : String)
    (len : Int) (j : Nat) (v : UploadVars) : UploadVars :=
  match v.running[j]? with
  | none => v
  | some t =>
    let s := Put.taskStep (transfer t.idx t.attempt) path uploadid t.partseq t.file
      v.success len t.pc
    let v1 := { v with calls := v.calls ++ s.calls, progress := v.progress ++ s.up }
    match s.next with
    | some pc => { v1 with running := v.running.set j { t with pc := pc } }
    | none =>
      match s.err with
      | none => { v1 with success := v.success + 1, running := v.running.eraseIdx j }
      | some err =>
        if t.attempt + 1 < 3 then
          { v1 with running := v.running.set j { t with attempt := t.attempt + 1,
                                                         pc := .uploading } }
        else
          { v1 with
            cause := (match v.cause with
              | some e => some e
              | none => some err)
            running := v.running.eraseIdx j }

/-- Whether the loop of `Put` can take a step: always at the head of the loop, inside
`threadG.Go` when the pool has room, never in `threadG.Wait()`. -/
def mainEnabled (uploadThread : Int) (v : UploadVars) : Bool :=
  match v.main with
  | .ranging => true
  | .going => poolHasRoom uploadThread v.running
  | .waiting => false

/-- Whether the transfer phase is over: the loop is in `threadG.Wait()` and the pool is
empty. -/
def transferDone (v : UploadVars) : Bool :=
  decide (v.main = .waiting) && v.running.isEmpty

/-- The transfer phase, lines 216-248, as the interleaving of the loop of `Put` and the
tasks of the pool that `schedule` picks: at step `t` the goroutines that can take a step
are the loop (when `mainEnabled`) and every task in the pool, and `schedule t` names the
one that does. `none` means the fuel ran out before `threadG.Wait()` returned. -/
def Put.transferRun (schedule : Nat → Nat) (uploadThread : Int)
    (transfer : Nat → Nat → Except Err ResponseBody) (uploadCanceled : Nat → Bool)
    (path uploadid : String) (tempFile : List Byte) (count lastBlockSize : Int)
    (blockList : List Int) : Nat → Nat → UploadVars → Option UploadVars
  | 0, _, v => if transferDone v then some v else none
  | fuel + 1, t, v =>
    if transferDone v then some v
    else if mainEnabled uploadThread v then
      if schedule t % (v.running.length + 1) = 0 then
        Put.transferRun schedule uploadThread transfer uploadCanceled path uploadid tempFile
          count lastBlockSize blockList fuel (t + 1)
          (Put.mainStep uploadCanceled tempFile count lastBlockSize blockList v)
      else
        Put.transferRun schedule uploadThread transfer uploadCanceled path uploadid tempFile
          count lastBlockSize blockList fuel (t + 1)
          (Put.groupStep transfer path uploadid (blockList.length : Int)
            (schedule t % (v.running.length + 1) - 1) v)
    else
      Put.transferRun schedule uploadThread transfer uploadCanceled path uploadid tempFile
        count lastBlockSize blockList fuel (t + 1)
        (Put.groupStep transfer path uploadid (blockList.length : Int)
          (schedule t % v.running.length) v)

/-- What one run of `Put` does: its return value, the requests it sent and the values it
passed to the progress callback. -/
structure Outcome (Obj : Type) where
  result : Except Err Obj
  calls : List Call
  progress : List Int

/-- Lines 187-257 of `Put`: precreate, the transfer phase and create, for the staged file
and the results of the hashing pass. The transfer phase gets fuel for `9 * n + 2` steps,
which is enough for `n` listed slices under every scheduler; `none` would mean that it ran
out. -/
def Put.finish {File Obj : Type} (env : Env File Obj) (d : BaiduNetdisk)
    (dstDirPath : String) (stream : Stream) (tempFile : List Byte) (h : HashBundle) :
    Option (Outcome Obj) :=
  let streamSize := stream.size
  let blockListStr := marshalToString h.blockList
  -- step 1: precreate
  let rawPath := env.join dstDirPath stream.name
  let path := env.encodeURIComponent rawPath
  let precreate := Call.precreate path streamSize blockListStr h.contentMd5 h.sliceMd5
  match env.post precreate with
  | .error err => some ⟨.error err, [precreate], []⟩
  | .ok precreateResp =>
    if precreateResp.ReturnType = 2 then
      -- rapid upload
      some ⟨.ok (env.fileToObj precreateResp.File), [precreate], []⟩
    else
      -- step 2: upload the slices
      match Put.transferRun env.schedule d.uploadThread env.transfer env.uploadCanceled path
          precreateResp.Uploadid tempFile h.count h.lastBlockSize precreateResp.BlockList
          (9 * precreateResp.BlockList.length + 2) 0
          ⟨0, .ranging, 0, none, [], [], [precreate]⟩ with
      | none => none
      | some v =>
        match v.cause with
        | some err => some ⟨.error err, v.calls, v.progress⟩
        | none =>
          -- step 3: create the file
          let create := Call.create rawPath streamSize precreateResp.Uploadid blockListStr
          match env.create create with
          | .error err => some ⟨.error err, v.calls ++ [create], v.progress⟩
          | .ok newFile => some ⟨.ok (env.fileToObj newFile), v.calls ++ [create], v.progress⟩

/-- `Put`: stage the stream, hash it, then negotiate, transfer and finalize. `none` only if
a loop ran out of fuel. -/
def Put {File Obj : Type} (env : Env File Obj) (d : BaiduNetdisk) (dstDirPath : String)
    (stream : Stream) : Option (Outcome Obj) :=
  match env.createTempFile with
  | .error err => some ⟨.error err, [], []⟩
  | .ok tempFile =>
    match Put.hashes env.md5 env.hashCanceled tempFile stream.size with
    | none => none
    | some (.error err) => some ⟨.error err, [], []⟩
    | some (.ok h) => Put.finish env d dstDirPath stream tempFile h

/-! ## Auxiliary definitions for the proofs -/

/-- State of a limit writer created with allowance `H` on an empty hash, after the bytes
`s` have been written to it in any number of writes. -/
def limitWriterAfter (H : Nat) (s : List Byte) : limitWriter :=
  { w := ⟨s.take H⟩, limit := (H : Int) - ((min s.length H : Nat) : Int) }

/-- File offset after `j` of `c` slices of size `D`, the last of length `L`. -/
def readUpTo (D c L j : Nat) : Nat := if j < c then j * D else (c - 1) * D + L

/-- Length of slice `j` (counted from zero). -/
def sliceLen (D c L j : Nat) : Nat := if j + 1 = c then L else D

/-- Hexadecimal digest of the bytes of slice `j` (counted from zero). -/
def sliceHash (md5 : List Byte → List Byte) (data : List Byte) (D c L j : Nat) : String :=
  hexEncodeToString (md5 ((data.drop (j * D)).take (sliceLen D c L j)))

/-- The loop variables after `j` iterations of the hashing loop. -/
def hashVarsAfter (md5 : List Byte → List Byte) (data : List Byte) (D H c L j : Nat) :
    HashVars :=
  { offset := readUpTo D c L j
    byteSize := if j < c then (D : Int) else (L : Int)
    blockList := (List.range j).map (sliceHash md5 data D c L)
    ws :=
      { fileMd5H := ⟨data.take (readUpTo D c L j)⟩
        sliceMd5H := ⟨[]⟩
        slicemd5H2Write := limitWriterAfter H (data.take (readUpTo D c L j)) } }

/-- Steps that a task in the pool can still take, at most. -/
def Task.weight (t : Task) : Nat :=
  match t.pc with
  | .uploading => 4 + (3 - t.attempt)
  | .uploaded => 3
  | .loaded _ => 2
  | .returning => 1

/-- Steps that the loop of `Put` can still cause, at most, with `n` entries in the block
list: its own and those of the tasks it has yet to start. -/
def mainWeight (n : Nat) (v : UploadVars) : Nat :=
  match v.main with
  | .ranging => 9 * (n - v.next) + 2
  | .going => 9 * (n - v.next) + 1
  | .waiting => 0

/-- Steps that the transfer phase can still take, at most. -/
def transferWeight (n : Nat) (v : UploadVars) : Nat :=
  mainWeight n v + (v.running.map Task.weight).sum

/-! ## Concrete environments -/

/-- A three-byte stream whose precreate answer asks for slice `0`; every transfer and the
create request succeed. -/
def uploadEnv : Env Nat Nat :=
  { md5 := id
    fileToObj := id
    encodeURIComponent := id
    join := fun a b => a ++ "/" ++ b
    createTempFile := .ok [1, 2, 3]
    hashCanceled := fun _ => false
    post := fun _ => .ok ⟨1, 7, "id", [0]⟩
    uploadCanceled := fun _ => false
    transfer := fun _ _ => .ok []
    create := fun _ => .ok 9
    schedule := fun _ => 0 }

/-- As `uploadEnv`, with a precreate answer that reports a dedup match. -/
def dedupEnv : Env Nat Nat :=
  { uploadEnv with post := fun _ => .ok ⟨2, 7, "", [0]⟩ }

/-- The stream staged by the environments above. -/
def smallStream : Stream := ⟨"f", 3⟩

/-- A driver as `Init` leaves it by default: three upload threads. -/
def defaultDriver : BaiduNetdisk := ⟨"3", "", 3⟩


/-- A schedule for three slices on a pool of width two: the loop starts the tasks for
slices `0` and `1`; the first task uploads and reads the count `0`; the second task uploads,
reads `0`, calls `up` and returns; the loop starts the task for slice `2`, which uploads,
reads the count `1` and calls `up`; only then the first task calls `up`. -/
def raceSchedule (t : Nat) : Nat :=
  [0, 0, 0, 0, 1, 1, 2, 2, 2, 2, 0, 0, 2, 2, 2, 1, 1, 1, 1, 1, 0].getD t 0
/-! ## Rounding to `float64` -/

theorem roundHalfEven_intCast (k : Int) : roundHalfEven (k : ℚ) = k := by
  simp [roundHalfEven]

theorem roundHalfEven_floor_le (m : ℚ) : Int.floor m ≤ roundHalfEven m := by
  unfold roundHalfEven
  simp only
  split_ifs <;> omega

theorem roundHalfEven_le_ceil (m : ℚ) : roundHalfEven m ≤ Int.ceil m := by
  unfold roundHalfEven
  simp only
  by_cases h : (m - (Int.floor m : ℚ)) < 1 / 2
  · rw [if_pos h]; exact Int.floor_le_ceil m
  · rw [if_neg h]
    have hne : (Int.floor m : ℚ) < m := by linarith
    have hlt : Int.floor m < Int.ceil m := by
      have := Int.le_ceil m
      have h2 : ((Int.floor m : ℤ) : ℚ) < ((Int.ceil m : ℤ) : ℚ) := lt_of_lt_of_le hne this
      exact_mod_cast h2
    split_ifs <;> omega

theorem le_roundHalfEven {K : Int} {m : ℚ} (h : (K : ℚ) ≤ m) : K ≤ roundHalfEven m :=
  le_trans (Int.le_floor.mpr h) (roundHalfEven_floor_le m)

theorem roundHalfEven_le {K : Int} {m : ℚ} (h : m ≤ (K : ℚ)) : roundHalfEven m ≤ K :=
  le_trans (roundHalfEven_le_ceil m) (Int.ceil_le.mpr h)

/-- The unit in the last place used by `roundF64` at a positive `q`. -/
theorem ulp_pos (e : Int) : (0 : ℚ) < 2 ^ e := by positivity

theorem scaled_ge (q : ℚ) (hq : 0 < q) : (2 : ℚ) ^ (52 : ℕ) ≤ q / 2 ^ (Int.log 2 q - 52) := by
  have h1 : ((2 : ℕ) : ℚ) ^ Int.log 2 q ≤ q := Int.zpow_log_le_self (by norm_num) hq
  rw [le_div_iff₀ (ulp_pos _)]
  have : (2 : ℚ) ^ (52 : ℕ) * 2 ^ (Int.log 2 q - 52) = 2 ^ Int.log 2 q := by
    rw [← zpow_natCast, ← zpow_add₀ (by norm_num)]
    congr 1
    push_cast
    ring
  rw [this]
  exact_mod_cast h1

theorem scaled_lt (q : ℚ) : q / 2 ^ (Int.log 2 q - 52) < (2 : ℚ) ^ (53 : ℕ) := by
  have h1 : q < ((2 : ℕ) : ℚ) ^ (Int.log 2 q + 1) := Int.lt_zpow_succ_log_self (by norm_num) q
  rw [div_lt_iff₀ (ulp_pos _)]
  have : (2 : ℚ) ^ (53 : ℕ) * 2 ^ (Int.log 2 q - 52) = 2 ^ (Int.log 2 q + 1) := by
    rw [← zpow_natCast, ← zpow_add₀ (by norm_num)]
    congr 1
    push_cast
    ring
  rw [this]
  exact_mod_cast h1

theorem roundF64_pos_eq (q : ℚ) (hq : 0 < q) :
    roundF64 q = (roundHalfEven (q / 2 ^ (Int.log 2 q - 52)) : ℚ) * 2 ^ (Int.log 2 q - 52) := by
  unfold roundF64
  rw [if_neg (ne_of_gt hq), if_neg (not_lt.mpr (le_of_lt hq)), abs_of_pos hq]
  simp

/-- Nonnegative values representable with a 53-bit significand. -/
def IsF64 (x : ℚ) : Prop := ∃ (M : ℕ) (j : ℤ), M ≤ 2 ^ 53 ∧ x = (M : ℚ) * 2 ^ j

theorem roundF64_of_scaled_int (q : ℚ) (hq : 0 < q) (K : ℤ)
    (h : q / 2 ^ (Int.log 2 q - 52) = (K : ℚ)) : roundF64 q = q := by
  rw [roundF64_pos_eq q hq, h, roundHalfEven_intCast, ← h]
  exact div_mul_cancel₀ q (ne_of_gt (ulp_pos _))

theorem IsF64.roundF64_eq {x : ℚ} (hx : IsF64 x) : roundF64 x = x := by
  obtain ⟨M, j, hM, rfl⟩ := hx
  rcases Nat.eq_zero_or_pos M with h0 | hpos
  · subst h0; simp [roundF64]
  have hq : (0 : ℚ) < (M : ℚ) * 2 ^ j := by positivity
  set q : ℚ := (M : ℚ) * 2 ^ j with hqdef
  have hlog_le : Int.log 2 q ≤ 53 + j := by
    have h1 : ((2 : ℕ) : ℚ) ^ Int.log 2 q ≤ q := Int.zpow_log_le_self (by norm_num) hq
    have h2 : q ≤ (2 : ℚ) ^ (53 + j) := by
      rw [hqdef, zpow_add₀ (by norm_num : (2 : ℚ) ≠ 0)]
      apply mul_le_mul_of_nonneg_right _ (le_of_lt (ulp_pos j))
      exact_mod_cast hM
    have h3 : (2 : ℚ) ^ Int.log 2 q ≤ (2 : ℚ) ^ (53 + j) := by
      refine le_trans ?_ h2
      exact_mod_cast h1
    exact (zpow_le_zpow_iff_right₀ (by norm_num : (1 : ℚ) < 2)).mp h3
  rcases lt_or_eq_of_le hlog_le with hlt | heq
  · -- the scaled value is `M * 2 ^ (j + 52 - e)` with a natural exponent
    obtain ⟨t, ht⟩ := Int.eq_ofNat_of_zero_le (show 0 ≤ j + 52 - Int.log 2 q by omega)
    apply roundF64_of_scaled_int q hq ((M : ℤ) * 2 ^ t)
    rw [hqdef, mul_div_assoc, ← zpow_sub₀ (by norm_num : (2 : ℚ) ≠ 0)]
    have : j - (Int.log 2 q - 52) = (t : ℤ) := by omega
    rw [this, zpow_natCast]
    push_cast
    ring
  · -- only `M = 2 ^ 53` reaches the next binade
    have hM' : M = 2 ^ 53 := by
      have h1 : ((2 : ℕ) : ℚ) ^ Int.log 2 q ≤ q := Int.zpow_log_le_self (by norm_num) hq
      rw [heq, hqdef, zpow_add₀ (by norm_num)] at h1
      have h2 : ((2 : ℚ) ^ (53 : ℤ)) ≤ (M : ℚ) := by
        have := le_of_mul_le_mul_right h1 (ulp_pos j)
        exact_mod_cast this
      have h3 : (2 : ℕ) ^ 53 ≤ M := by
        have : (((2 : ℕ) ^ 53 : ℕ) : ℚ) ≤ (M : ℚ) := by
          push_cast
          exact_mod_cast h2
        exact_mod_cast this
      omega
    apply roundF64_of_scaled_int q hq (2 ^ 52)
    rw [heq, hqdef, hM', mul_div_assoc, ← zpow_sub₀ (by norm_num : (2 : ℚ) ≠ 0)]
    have : j - (53 + j - 52) = -1 := by omega
    rw [this]
    norm_num

theorem roundF64_isF64 (q : ℚ) (hq : 0 ≤ q) : IsF64 (roundF64 q) := by
  rcases eq_or_lt_of_le hq with h0 | hpos
  · subst h0; exact ⟨0, 0, by norm_num, by simp [roundF64]⟩
  rw [roundF64_pos_eq q hpos]
  set m := q / 2 ^ (Int.log 2 q - 52) with hm
  have hlo : (2 : ℤ) ^ 52 ≤ roundHalfEven m := by
    apply le_roundHalfEven
    have := scaled_ge q hpos
    push_cast
    exact this
  have hhi : roundHalfEven m ≤ (2 : ℤ) ^ 53 := by
    apply roundHalfEven_le
    have := scaled_lt q
    push_cast
    exact le_of_lt this
  refine ⟨(roundHalfEven m).toNat, Int.log 2 q - 52, ?_, ?_⟩
  · omega
  · have : ((roundHalfEven m).toNat : ℤ) = roundHalfEven m := Int.toNat_of_nonneg (by omega)
    have h2 : (((roundHalfEven m).toNat : ℕ) : ℚ) = ((roundHalfEven m : ℤ) : ℚ) := by
      exact_mod_cast this
    rw [h2]

theorem IsF64.div_two_pow {x : ℚ} (hx : IsF64 x) (k : ℕ) : IsF64 (x / 2 ^ k) := by
  obtain ⟨M, j, hM, rfl⟩ := hx
  refine ⟨M, j - k, hM, ?_⟩
  rw [zpow_sub₀ (by norm_num : (2 : ℚ) ≠ 0), zpow_natCast]
  ring

theorem isF64_natCast (n : ℕ) (h : n ≤ 2 ^ 53) : IsF64 (n : ℚ) :=
  ⟨n, 0, h, by simp⟩

theorem le_roundF64 (q : ℚ) (hq : 0 < q) (K : ℤ)
    (h : (K : ℚ) * 2 ^ (Int.log 2 q - 52) ≤ q) :
    (K : ℚ) * 2 ^ (Int.log 2 q - 52) ≤ roundF64 q := by
  rw [roundF64_pos_eq q hq]
  apply mul_le_mul_of_nonneg_right _ (le_of_lt (ulp_pos _))
  have : K ≤ roundHalfEven (q / 2 ^ (Int.log 2 q - 52)) :=
    le_roundHalfEven ((le_div_iff₀ (ulp_pos _)).mpr h)
  exact_mod_cast this

theorem roundF64_le (q : ℚ) (hq : 0 < q) (K : ℤ)
    (h : q ≤ (K : ℚ) * 2 ^ (Int.log 2 q - 52)) :
    roundF64 q ≤ (K : ℚ) * 2 ^ (Int.log 2 q - 52) := by
  rw [roundF64_pos_eq q hq]
  apply mul_le_mul_of_nonneg_right _ (le_of_lt (ulp_pos _))
  have : roundHalfEven (q / 2 ^ (Int.log 2 q - 52)) ≤ K :=
    roundHalfEven_le ((div_le_iff₀ (ulp_pos _)).mpr h)
  exact_mod_cast this


/-! ## What `count` computes -/

theorem float64_of_le (n : Int) (h0 : 0 ≤ n) (h : n ≤ 2 ^ 53) : float64 n = (n : ℚ) := by
  obtain ⟨m, rfl⟩ := Int.eq_ofNat_of_zero_le h0
  unfold float64
  have hm : m ≤ 2 ^ 53 := by exact_mod_cast h
  simpa using (isF64_natCast m hm).roundF64_eq

theorem float64_DefaultSliceSize : float64 DefaultSliceSize = (2 : ℚ) ^ 22 := by
  rw [float64_of_le _ (by decide) (by decide)]
  norm_num [DefaultSliceSize]

theorem fdiv_float64 (n : Int) (h0 : 0 ≤ n) :
    fdiv (float64 n) (float64 DefaultSliceSize) = float64 n / 2 ^ 22 := by
  rw [float64_DefaultSliceSize]
  unfold fdiv
  have h1 : IsF64 (float64 n) := roundF64_isF64 _ (by exact_mod_cast h0)
  exact (h1.div_two_pow 22).roundF64_eq

theorem float64_nonneg (n : Int) (h0 : 0 ≤ n) : 0 ≤ float64 n := by
  obtain ⟨M, j, _, h⟩ := roundF64_isF64 (n : ℚ) (by exact_mod_cast h0)
  unfold float64
  rw [h]
  positivity

/-- The value of `count`, with the float operations that are exact removed. -/
theorem count_eq (n : Int) (h0 : 0 ≤ n) :
    Put.count n = max (Int.ceil (float64 n / 2 ^ 22)) 1 := by
  unfold Put.count
  rw [fdiv_float64 n h0]
  unfold mathCeil mathMax toInt
  have hc : 0 ≤ Int.ceil (float64 n / 2 ^ 22) :=
    Int.ceil_nonneg (div_nonneg (float64_nonneg n h0) (by positivity))
  by_cases h : Int.ceil (float64 n / 2 ^ 22) < 1
  · have h' : ((Int.ceil (float64 n / 2 ^ 22) : ℤ) : ℚ) < 1 := by exact_mod_cast h
    rw [if_pos h']
    simp
    omega
  · have h' : ¬ ((Int.ceil (float64 n / 2 ^ 22) : ℤ) : ℚ) < 1 := by
      intro hh; exact h (by exact_mod_cast hh)
    rw [if_neg h']
    have h2 : (0 : ℚ) ≤ ((Int.ceil (float64 n / 2 ^ 22) : ℤ) : ℚ) := by exact_mod_cast hc
    rw [if_pos h2, Int.floor_intCast]
    omega

/-- Multiples of the slice size are representable and rounding never crosses one:
lower side. -/
theorem mul_slice_le_float64 (n k : Int) (h0 : 0 < n) (hn : n < 2 ^ 63)
    (h : k * 2 ^ 22 ≤ n) : ((k * 2 ^ 22 : ℤ) : ℚ) ≤ float64 n := by
  have hq : (0 : ℚ) < (n : ℚ) := by exact_mod_cast h0
  have he : Int.log 2 (n : ℚ) < 63 := by
    rw [← Int.lt_zpow_iff_log_lt (by norm_num) hq]
    have h63 : (n : ℚ) < ((2 ^ 63 : ℤ) : ℚ) := by exact_mod_cast hn
    norm_num at h63 ⊢
    exact h63
  obtain ⟨t, ht⟩ := Int.eq_ofNat_of_zero_le (show 0 ≤ 74 - Int.log 2 (n : ℚ) by omega)
  have hmul : ((k * 2 ^ 22 : ℤ) : ℚ) = ((k * 2 ^ t : ℤ) : ℚ) * 2 ^ (Int.log 2 (n : ℚ) - 52) := by
    push_cast
    rw [mul_assoc, ← zpow_natCast (2 : ℚ) t, ← zpow_add₀ (by norm_num : (2 : ℚ) ≠ 0)]
    have : (t : ℤ) + (Int.log 2 (n : ℚ) - 52) = 22 := by omega
    rw [this]
    norm_num
  unfold float64
  rw [hmul]
  apply le_roundF64 _ hq
  rw [← hmul]
  exact_mod_cast h

/-- Multiples of the slice size are representable and rounding never crosses one:
upper side. -/
theorem float64_le_mul_slice (n k : Int) (h0 : 0 < n) (hn : n < 2 ^ 63)
    (h : n ≤ k * 2 ^ 22) : float64 n ≤ ((k * 2 ^ 22 : ℤ) : ℚ) := by
  have hq : (0 : ℚ) < (n : ℚ) := by exact_mod_cast h0
  have he : Int.log 2 (n : ℚ) < 63 := by
    rw [← Int.lt_zpow_iff_log_lt (by norm_num) hq]
    have h63 : (n : ℚ) < ((2 ^ 63 : ℤ) : ℚ) := by exact_mod_cast hn
    norm_num at h63 ⊢
    exact h63
  obtain ⟨t, ht⟩ := Int.eq_ofNat_of_zero_le (show 0 ≤ 74 - Int.log 2 (n : ℚ) by omega)
  have hmul : ((k * 2 ^ 22 : ℤ) : ℚ) = ((k * 2 ^ t : ℤ) : ℚ) * 2 ^ (Int.log 2 (n : ℚ) - 52) := by
    push_cast
    rw [mul_assoc, ← zpow_natCast (2 : ℚ) t, ← zpow_add₀ (by norm_num : (2 : ℚ) ≠ 0)]
    have : (t : ℤ) + (Int.log 2 (n : ℚ) - 52) = 22 := by omega
    rw [this]
    norm_num
  unfold float64
  rw [hmul]
  apply roundF64_le _ hq
  rw [← hmul]
  exact_mod_cast h


theorem ceil_div_slice_of_eq (x : ℚ) (k : Int) (h : x = (k : ℚ) * 2 ^ 22) :
    Int.ceil (x / 2 ^ 22) = k := by
  rw [h, mul_div_assoc, div_self (by norm_num), mul_one, Int.ceil_intCast]

theorem ceil_div_slice_of_between (x : ℚ) (k : Int) (h1 : (k : ℚ) * 2 ^ 22 < x)
    (h2 : x ≤ ((k : ℚ) + 1) * 2 ^ 22) : Int.ceil (x / 2 ^ 22) = k + 1 := by
  rw [Int.ceil_eq_iff]
  constructor
  · rw [lt_div_iff₀ (by norm_num)]
    push_cast
    linarith
  · rw [div_le_iff₀ (by norm_num)]
    push_cast
    linarith

/-- The specification's count in integer arithmetic. -/
theorem specSliceCount_eq (n : Int) :
    specSliceCount n = if n % 2 ^ 22 = 0 then max (n / 2 ^ 22) 1 else max (n / 2 ^ 22 + 1) 1 := by
  unfold specSliceCount
  have hD : ((DefaultSliceSize : ℤ) : ℚ) = 2 ^ 22 := by norm_num [DefaultSliceSize]
  rw [hD]
  have hdm := Int.emod_add_ediv n (2 ^ 22)
  have hr0 := Int.emod_nonneg n (show (2 ^ 22 : ℤ) ≠ 0 by norm_num)
  have hr1 := Int.emod_lt_of_pos n (show (0 : ℤ) < 2 ^ 22 by norm_num)
  have hq : (n : ℚ) = ((n % 2 ^ 22 : ℤ) : ℚ) + ((n / 2 ^ 22 : ℤ) : ℚ) * 2 ^ 22 := by
    have : (n : ℚ) = ((n % 2 ^ 22 + 2 ^ 22 * (n / 2 ^ 22) : ℤ) : ℚ) := by rw [hdm]
    rw [this]; push_cast; ring
  generalize n % 2 ^ 22 = r at hdm hr0 hr1 hq ⊢
  generalize n / 2 ^ 22 = k at hdm hq ⊢
  by_cases hr : r = 0
  · rw [if_pos hr, ceil_div_slice_of_eq (n : ℚ) k]
    rw [hq, hr]; simp
  · rw [if_neg hr, ceil_div_slice_of_between (n : ℚ) k]
    · have : (0 : ℚ) < (r : ℚ) := by
        have : 0 < r := by omega
        exact_mod_cast this
      linarith
    · have : (r : ℚ) ≤ 2 ^ 22 := by
        have : r ≤ 2 ^ 22 := by omega
        exact_mod_cast this
      linarith

/-- The code's count is the exact one, or one less; it can be one less only beyond
`2 ^ 53`, where `float64(streamSize)` rounds down onto a multiple of the slice size. -/
theorem count_cases (n : Int) (h0 : 0 ≤ n) (hn : n < 2 ^ 63) :
    Put.count n = specSliceCount n ∨
      (2 ^ 53 < n ∧ n % 2 ^ 22 ≠ 0 ∧ Put.count n = n / 2 ^ 22 ∧
        specSliceCount n = n / 2 ^ 22 + 1) := by
  rw [count_eq n h0, specSliceCount_eq]
  have hdm := Int.emod_add_ediv n (2 ^ 22)
  have hr0 := Int.emod_nonneg n (show (2 ^ 22 : ℤ) ≠ 0 by norm_num)
  have hr1 := Int.emod_lt_of_pos n (show (0 : ℤ) < 2 ^ 22 by norm_num)
  have hk0 : 0 ≤ n / 2 ^ 22 := Int.ediv_nonneg h0 (by norm_num)
  rcases eq_or_lt_of_le h0 with hz | hpos
  · subst hz
    left
    have : float64 0 = 0 := by simp [float64, roundF64]
    rw [this]
    simp
  have hlo := mul_slice_le_float64 n (n / 2 ^ 22) hpos hn (by omega)
  have hhi := float64_le_mul_slice n (n / 2 ^ 22 + 1) hpos hn (by omega)
  by_cases hr : n % 2 ^ 22 = 0
  · left
    rw [if_pos hr]
    have hhi' := float64_le_mul_slice n (n / 2 ^ 22) hpos hn (by omega)
    have : float64 n = ((n / 2 ^ 22 : ℤ) : ℚ) * 2 ^ 22 := by
      apply le_antisymm
      · have := hhi'; push_cast at this; exact this
      · have := hlo; push_cast at this; exact this
    rw [ceil_div_slice_of_eq _ _ this]
  · rw [if_neg hr]
    by_cases hf : float64 n = ((n / 2 ^ 22 : ℤ) : ℚ) * 2 ^ 22
    · right
      have hbig : 2 ^ 53 < n := by
        by_contra hle
        have hx := float64_of_le n h0 (by omega)
        rw [hx] at hf
        have : n = n / 2 ^ 22 * 2 ^ 22 := by exact_mod_cast hf
        omega
      refine ⟨hbig, hr, ?_, ?_⟩
      · rw [ceil_div_slice_of_eq _ _ hf]
        omega
      · omega
    · left
      have hlt : ((n / 2 ^ 22 : ℤ) : ℚ) * 2 ^ 22 < float64 n := by
        apply lt_of_le_of_ne
        · have := hlo; push_cast at this; exact this
        · exact fun h => hf h.symm
      have hle : float64 n ≤ (((n / 2 ^ 22 : ℤ) : ℚ) + 1) * 2 ^ 22 := by
        have := hhi; push_cast at this; exact this
      rw [ceil_div_slice_of_between _ _ hlt hle]

/-- Up to `2 ^ 53` bytes the code's count is the exact ceiling. -/
theorem count_eq_spec_of_le (n : Int) (h0 : 0 ≤ n) (hn : n ≤ 2 ^ 53) :
    Put.count n = specSliceCount n := by
  rcases count_cases n h0 (by omega) with h | ⟨h, _⟩
  · exact h
  · omega

theorem lastBlockSize_eq (n : Int) (h0 : 0 ≤ n) :
    Put.lastBlockSize n = if 0 < n ∧ n % 2 ^ 22 = 0 then 2 ^ 22 else n % 2 ^ 22 := by
  unfold Put.lastBlockSize
  have hD : DefaultSliceSize = 2 ^ 22 := by norm_num [DefaultSliceSize]
  simp only [hD]
  have : Int.tmod n (2 ^ 22) = n % 2 ^ 22 := Int.tmod_eq_emod h0 (by norm_num)
  rw [this]

/-- The number of bytes the slice lengths add up to: the stream size when the count is
exact, one slice less otherwise. -/
theorem total_cases (n : Int) (h0 : 0 ≤ n) (hn : n < 2 ^ 63) :
    (Put.count n - 1) * DefaultSliceSize + Put.lastBlockSize n = n ∨
      (2 ^ 53 < n ∧
        (Put.count n - 1) * DefaultSliceSize + Put.lastBlockSize n = n - DefaultSliceSize) := by
  have hD : DefaultSliceSize = 2 ^ 22 := by norm_num [DefaultSliceSize]
  have hdm := Int.emod_add_ediv n (2 ^ 22)
  have hr0 := Int.emod_nonneg n (show (2 ^ 22 : ℤ) ≠ 0 by norm_num)
  have hr1 := Int.emod_lt_of_pos n (show (0 : ℤ) < 2 ^ 22 by norm_num)
  have hk0 : 0 ≤ n / 2 ^ 22 := Int.ediv_nonneg h0 (by norm_num)
  rw [lastBlockSize_eq n h0, hD]
  rcases count_cases n h0 hn with h | ⟨hbig, hr, hc, _⟩
  · left
    rw [h, specSliceCount_eq]
    by_cases hr : n % 2 ^ 22 = 0
    · rw [if_pos hr]
      by_cases hz : 0 < n
      · rw [if_pos ⟨hz, hr⟩]
        have : 1 ≤ n / 2 ^ 22 := by omega
        rw [max_eq_left this]
        omega
      · have hn0 : n = 0 := by omega
        subst hn0
        simp
    · rw [if_neg hr, if_neg (fun h => hr h.2)]
      rw [max_eq_left (by omega)]
      omega
  · right
    refine ⟨hbig, ?_⟩
    rw [hc, if_neg (fun h => hr h.2)]
    omega


/-- `float64(2^53 + 1)` is `2^53`: the tie between `2^53` and `2^53 + 2` goes to the even
significand. -/
theorem float64_two_pow_53_succ : float64 9007199254740993 = 9007199254740992 := by
  have hlog : Int.log 2 ((9007199254740993 : ℤ) : ℚ) = 53 := by
    have h : ((9007199254740993 : ℤ) : ℚ) = ((9007199254740993 : ℕ) : ℚ) := by norm_num
    rw [h, Int.log_natCast]
    have : Nat.log 2 9007199254740993 = 53 :=
      Nat.log_eq_of_pow_le_of_lt_pow (by norm_num) (by norm_num)
    rw [this]
    rfl
  unfold float64
  rw [roundF64_pos_eq _ (by norm_num), hlog]
  have hm : ((9007199254740993 : ℤ) : ℚ) / 2 ^ ((53 : ℤ) - 52) = 9007199254740993 / 2 := by
    norm_num
  rw [hm]
  have hfl : Int.floor ((9007199254740993 : ℚ) / 2) = 4503599627370496 := by
    rw [Int.floor_eq_iff]
    constructor <;> norm_num
  have hr : roundHalfEven ((9007199254740993 : ℚ) / 2) = 4503599627370496 := by
    unfold roundHalfEven
    simp only [hfl]
    norm_num
  rw [hr]
  norm_num

theorem count_two_pow_53_succ : Put.count 9007199254740993 = 2147483648 := by
  rw [count_eq _ (by norm_num), float64_two_pow_53_succ]
  have : Int.ceil ((9007199254740992 : ℚ) / 2 ^ 22) = 2147483648 := by
    apply ceil_div_slice_of_eq
    norm_num
  rw [this]
  norm_num


/-! ## The writers -/

theorem limitWriterAfter_write (H : Nat) (s p : List Byte) :
    (limitWriterAfter H s).Write p = limitWriterAfter H (s ++ p) := by
  unfold limitWriterAfter limitWriter.Write Hash.Write
  simp only
  by_cases h : s.length < H
  · have hmin : min s.length H = s.length := by omega
    rw [if_pos (by omega)]
    have htn : ((H : Int) - ((min s.length H : Nat) : Int)).toNat = H - s.length := by omega
    rw [htn, List.take_append_eq_append_take, List.take_of_length_le (le_of_lt h)]
    simp only [List.length_take, List.length_append, limitWriter.mk.injEq, and_true, true_and]
    omega
  · have hmin : min s.length H = H := by omega
    rw [if_neg (by omega)]
    simp only [limitWriter.mk.injEq, Hash.mk.injEq]
    constructor
    · rw [List.take_append_eq_append_take]
      have : H - s.length = 0 := by omega
      simp [this]
    · simp only [List.length_append]
      omega

theorem limitWriterAfter_nil (H : Nat) : limitWriterAfter H [] = LimitWriter Hash.New H := by
  simp [limitWriterAfter, LimitWriter, Hash.New]

theorem copyBuffer_eq (size : Nat) (hsize : 1 ≤ size) (f : Hash) (s : List Byte) (H : Nat)
    (t : List Byte) : ∀ (fuel : Nat) (src : List Byte) (p : List Byte), src.length ≤ fuel →
      copyBuffer size ⟨f.Write p, ⟨s ++ p⟩, limitWriterAfter H (t ++ p)⟩ fuel src =
        ⟨f.Write (p ++ src), ⟨s ++ (p ++ src)⟩, limitWriterAfter H (t ++ (p ++ src))⟩ := by
  intro fuel
  induction fuel with
  | zero =>
    intro src p h
    have : src = [] := List.eq_nil_of_length_eq_zero (by omega)
    subst this
    simp [copyBuffer]
  | succ fuel ih =>
    intro src p h
    unfold copyBuffer
    by_cases hs : src = []
    · subst hs; simp
    · rw [if_neg hs]
      have hlen : 0 < src.length := List.length_pos.mpr hs
      have hw : (⟨f.Write p, ⟨s ++ p⟩, limitWriterAfter H (t ++ p)⟩ : Writers).Write
          (src.take size) =
          ⟨f.Write (p ++ src.take size), ⟨s ++ (p ++ src.take size)⟩,
            limitWriterAfter H (t ++ (p ++ src.take size))⟩ := by
        simp [Writers.Write, Hash.Write, limitWriterAfter_write, List.append_assoc]
      rw [hw, ih (src.drop size) (p ++ src.take size) (by simp; omega)]
      simp [List.append_assoc, List.take_append_drop]

/-- `io.CopyN` feeds the writers the next `n` bytes of the file, however the copy is cut
into buffers. -/
theorem CopyN_eq (f : Hash) (s t : List Byte) (H : Nat) (tempFile : List Byte)
    (offset : Nat) (n : Int) :
    CopyN ⟨f, ⟨s⟩, limitWriterAfter H t⟩ tempFile offset n =
      (⟨f.Write ((tempFile.drop offset).take n.toNat),
        ⟨s ++ (tempFile.drop offset).take n.toNat⟩,
        limitWriterAfter H (t ++ (tempFile.drop offset).take n.toNat)⟩,
        ((tempFile.drop offset).take n.toNat).length) := by
  unfold CopyN
  simp only
  have hsize : 1 ≤ (if n < 1 then 1 else min copyBufSize n.toNat) := by
    unfold copyBufSize
    split_ifs <;> omega
  have h := copyBuffer_eq _ hsize f s H t ((tempFile.drop offset).take n.toNat).length
    ((tempFile.drop offset).take n.toNat) [] (le_refl _)
  simp only [List.append_nil, List.nil_append] at h
  have hf : f.Write [] = f := by simp [Hash.Write]
  rw [hf] at h
  rw [h]


/-! ## The hashing loop -/

theorem readUpTo_succ (D c L j : Nat) (hj : j < c) :
    readUpTo D c L (j + 1) = j * D + sliceLen D c L j := by
  unfold readUpTo sliceLen
  by_cases h : j + 1 = c
  · rw [if_neg (by omega), if_pos h]
    have : c - 1 = j := by omega
    rw [this]
  · rw [if_pos (by omega), if_neg h]
    ring

theorem slice_in_file (D c L j : Nat) (n : Nat) (hj : j < c) (hlen : (c - 1) * D + L ≤ n) :
    j * D + sliceLen D c L j ≤ n := by
  unfold sliceLen
  by_cases h : j + 1 = c
  · rw [if_pos h]
    have : c - 1 = j := by omega
    rw [this] at hlen
    exact hlen
  · rw [if_neg h]
    have h1 : j + 1 ≤ c - 1 := by omega
    have h2 : (j + 1) * D ≤ (c - 1) * D := Nat.mul_le_mul_right D h1
    have h3 : (j + 1) * D = j * D + D := by ring
    omega

/-- One iteration takes the state after `j` slices to the state after `j + 1`. -/
theorem hashVarsAfter_step (md5 : List Byte → List Byte) (data : List Byte)
    (D H c L j : Nat) (hj : j < c) (hlen : (c - 1) * D + L ≤ data.length) :
    let v := hashVarsAfter md5 data D H c L j
    let byteSize : Int := if ((j : Int) + 1) = (c : Int) then (L : Int) else v.byteSize
    let r := CopyN v.ws data v.offset byteSize
    ({ offset := v.offset + r.2
       byteSize := byteSize
       blockList := v.blockList ++ [hexEncodeToString (r.1.sliceMd5H.Sum md5)]
       ws := { r.1 with sliceMd5H := r.1.sliceMd5H.Reset } } : HashVars) =
      hashVarsAfter md5 data D H c L (j + 1) := by
  intro v byteSize r
  have hoff : v.offset = j * D := by
    simp only [v, hashVarsAfter, readUpTo, if_pos hj]
  have hbs : byteSize = ((sliceLen D c L j : Nat) : Int) := by
    simp only [byteSize, v, hashVarsAfter, if_pos hj, sliceLen]
    by_cases h : j + 1 = c
    · have h' : (j : Int) + 1 = (c : Int) := by exact_mod_cast h
      rw [if_pos h', if_pos h]
    · have h' : ¬ ((j : Int) + 1 = (c : Int)) := by
        intro hh; exact h (by exact_mod_cast hh)
      rw [if_neg h', if_neg h]
  have hin := slice_in_file D c L j data.length hj hlen
  have hsrc : ((data.drop (j * D)).take (sliceLen D c L j)).length = sliceLen D c L j := by
    rw [List.length_take, List.length_drop]
    omega
  have hr : r = (⟨⟨data.take (j * D) ++ (data.drop (j * D)).take (sliceLen D c L j)⟩,
        ⟨[] ++ (data.drop (j * D)).take (sliceLen D c L j)⟩,
        limitWriterAfter H (data.take (j * D) ++ (data.drop (j * D)).take (sliceLen D c L j))⟩,
        sliceLen D c L j) := by
    have hws : v.ws = ⟨⟨data.take (j * D)⟩, ⟨[]⟩, limitWriterAfter H (data.take (j * D))⟩ := by
      simp only [v, hashVarsAfter, readUpTo, if_pos hj]
    simp only [r]
    rw [hws, hoff, hbs, CopyN_eq, Int.toNat_ofNat, hsrc]
    rfl
  have htake : data.take (j * D) ++ (data.drop (j * D)).take (sliceLen D c L j) =
      data.take (j * D + sliceLen D c L j) := (List.take_add data _ _).symm
  rw [hr, hoff, hbs]
  simp only [hashVarsAfter, readUpTo_succ D c L j hj, htake, List.nil_append, Hash.Reset,
    Hash.Sum, List.range_succ, List.map_append, List.map_cons, List.map_nil, sliceHash,
    v, if_pos hj]
  congr 1
  unfold sliceLen
  by_cases h : j + 1 = c
  · rw [if_pos h, if_neg (by omega)]
  · rw [if_neg h, if_pos (by omega)]

/-- Without cancellation, and with all slices inside the file, the loop runs through all
`c` iterations and ends in the state after `c` slices. -/
theorem hashLoop_from (md5 : List Byte → List Byte) (isCanceled : Int → Bool)
    (data : List Byte) (D H c L : Nat) (hlen : (c - 1) * D + L ≤ data.length)
    (hcan : ∀ i, isCanceled i = false) :
    ∀ (fuel j : Nat), j + fuel = c →
      hashLoop md5 isCanceled data (c : Int) (L : Int) fuel ((j : Int) + 1)
        (hashVarsAfter md5 data D H c L j) =
        some (.ok (hashVarsAfter md5 data D H c L c)) := by
  intro fuel
  induction fuel with
  | zero =>
    intro j hj
    have : j = c := by omega
    subst this
    unfold hashLoop
    rw [if_neg (by omega)]
  | succ fuel ih =>
    intro j hj
    have hjc : j < c := by omega
    unfold hashLoop
    rw [if_pos (by omega)]
    simp only [hcan, Bool.false_eq_true, if_false]
    have hstep := hashVarsAfter_step md5 data D H c L j hjc hlen
    simp only at hstep
    rw [hstep]
    have := ih (j + 1) (by omega)
    push_cast at this
    exact this


/-! ## The hashing pass as a whole -/

theorem count_pos (n : Int) (h0 : 0 ≤ n) : 1 ≤ Put.count n := by
  rw [count_eq n h0]
  exact le_max_right _ _

theorem lastBlockSize_nonneg (n : Int) (h0 : 0 ≤ n) : 0 ≤ Put.lastBlockSize n := by
  rw [lastBlockSize_eq n h0]
  have hr0 := Int.emod_nonneg n (show (2 ^ 22 : ℤ) ≠ 0 by norm_num)
  split_ifs <;> omega

/-- The slices that the loop reads lie inside a file of `n` bytes. -/
theorem total_le (n : Int) (h0 : 0 ≤ n) (hn : n < 2 ^ 63) :
    (Put.count n - 1) * DefaultSliceSize + Put.lastBlockSize n ≤ n := by
  have hD : DefaultSliceSize = 2 ^ 22 := by norm_num [DefaultSliceSize]
  rcases total_cases n h0 hn with h | ⟨_, h⟩
  · omega
  · rw [h, hD]; omega

/-- Beyond the head window the loop always reads: the total is at least
`min(n, 256 KiB)`. -/
theorem window_le_total (n : Int) (h0 : 0 ≤ n) (hn : n < 2 ^ 63) :
    min n 262144 ≤ (Put.count n - 1) * DefaultSliceSize + Put.lastBlockSize n := by
  have hD : DefaultSliceSize = 2 ^ 22 := by norm_num [DefaultSliceSize]
  rcases total_cases n h0 hn with h | ⟨hbig, h⟩
  · rw [h]; exact min_le_left _ _
  · rw [h, hD]
    have : min n 262144 ≤ 262144 := min_le_right _ _
    omega

/-- Without cancellation the hashing pass over a staged file of `streamSize` bytes returns,
and its results are those of the state after `count` slices. -/
theorem hashes_eq (md5 : List Byte → List Byte) (isCanceled : Int → Bool) (data : List Byte)
    (hn : (data.length : Int) < 2 ^ 63) (hcan : ∀ i, isCanceled i = false) :
    Put.hashes md5 isCanceled data (data.length : Int) =
      some (.ok
        { count := Put.count data.length
          lastBlockSize := Put.lastBlockSize data.length
          blockList := (List.range (Put.count data.length).toNat).map
            (sliceHash md5 data 4194304 (Put.count data.length).toNat
              (Put.lastBlockSize data.length).toNat)
          contentMd5 := hexEncodeToString (md5 (data.take
            ((Put.count data.length - 1) * DefaultSliceSize +
              Put.lastBlockSize data.length).toNat))
          sliceMd5 := hexEncodeToString (md5 (data.take 262144))
          slicemd5H2Write := ⟨⟨data.take 262144⟩, 262144 - min (data.length : Int) 262144⟩
          fileMd5H := ⟨data.take ((Put.count data.length - 1) * DefaultSliceSize +
              Put.lastBlockSize data.length).toNat⟩ }) := by
  have h0 : (0 : Int) ≤ (data.length : Int) := Int.natCast_nonneg _
  have hc := count_pos _ h0
  have hl := lastBlockSize_nonneg _ h0
  have htot := total_le _ h0 hn
  have hwin := window_le_total _ h0 hn
  have hD : DefaultSliceSize = 2 ^ 22 := by norm_num [DefaultSliceSize]
  obtain ⟨c, hceq⟩ := Int.eq_ofNat_of_zero_le (show 0 ≤ Put.count data.length by omega)
  obtain ⟨L, hLeq⟩ := Int.eq_ofNat_of_zero_le hl
  have hc1 : 1 ≤ c := by omega
  have htotN : (c - 1) * 4194304 + L ≤ data.length := by
    rw [hceq, hLeq, hD] at htot
    have : ((c : Int) - 1) = ((c - 1 : Nat) : Int) := by omega
    rw [this] at htot
    have h2 : (((c - 1) * 4194304 + L : Nat) : Int) ≤ (data.length : Int) := by
      push_cast
      have e : (2 : Int) ^ 22 = 4194304 := by norm_num
      rw [e] at htot
      exact htot
    exact_mod_cast h2
  have hinit : HashVars.mk 0 DefaultSliceSize []
      (Writers.mk Hash.New Hash.New (LimitWriter Hash.New SliceSize)) =
      hashVarsAfter md5 data 4194304 262144 c L 0 := by
    simp only [hashVarsAfter, readUpTo, if_pos (show 0 < c by omega), Nat.zero_mul,
      List.take_zero, List.range_zero, List.map_nil, limitWriterAfter_nil]
    simp [Hash.New, DefaultSliceSize, SliceSize]
  have hloop := hashLoop_from md5 isCanceled data 4194304 262144 c L htotN hcan c 0 (by omega)
  unfold Put.hashes
  simp only
  rw [hinit, hceq, hLeq, Int.toNat_ofNat]
  have h1 : ((0 : Nat) : Int) + 1 = 1 := by norm_num
  rw [h1] at hloop
  rw [hloop]
  have hread : readUpTo 4194304 c L c = (c - 1) * 4194304 + L := by
    unfold readUpTo; rw [if_neg (by omega)]
  have htn : (((c : Int) - 1) * DefaultSliceSize + (L : Int)).toNat = (c - 1) * 4194304 + L := by
    rw [hD]
    have : ((c : Int) - 1) = ((c - 1 : Nat) : Int) := by omega
    rw [this]
    have e : (2 : Int) ^ 22 = 4194304 := by norm_num
    rw [e]
    have : (((c - 1 : Nat) : Int) * 4194304 + (L : Int)) = (((c - 1) * 4194304 + L : Nat) : Int) := by
      push_cast; ring
    rw [this, Int.toNat_ofNat]
  have hwinN : min data.length 262144 ≤ (c - 1) * 4194304 + L := by
    rw [hceq, hLeq] at hwin
    have h3 := htn
    have : ((min data.length 262144 : Nat) : Int) ≤ (((c - 1) * 4194304 + L : Nat) : Int) := by
      rw [← htn, Int.toNat_of_nonneg (by rw [hD]; omega)]
      push_cast
      exact hwin
    exact_mod_cast this
  have htake2 : (data.take ((c - 1) * 4194304 + L)).take 262144 = data.take 262144 := by
    rw [List.take_take]
    by_cases hsmall : data.length ≤ 262144
    · have hge : data.length ≤ (c - 1) * 4194304 + L := by
        have : min data.length 262144 = data.length := by omega
        omega
      rw [List.take_of_length_le (by omega), List.take_of_length_le hsmall]
    · have : min data.length 262144 = 262144 := by omega
      have : min 262144 ((c - 1) * 4194304 + L) = 262144 := by omega
      rw [this]
  have hlim : ((262144 : Nat) : Int) -
      ((min (data.take ((c - 1) * 4194304 + L)).length 262144 : Nat) : Int) =
      262144 - min (data.length : Int) 262144 := by
    rw [List.length_take]
    have : min (min ((c - 1) * 4194304 + L) data.length) 262144 = min data.length 262144 := by
      omega
    rw [this]
    push_cast
    rfl
  simp only [hashVarsAfter, hread, htn, limitWriterAfter, Hash.Sum, htake2, hlim,
    Int.toNat_ofNat]


/-! ## The transfer phase -/

theorem progress_eq_ediv (c n : Int) (hc : 0 ≤ c) (hn : 0 ≤ n) :
    Put.progress c n = c * 100 / n := by
  unfold Put.progress
  exact Int.tdiv_eq_ediv (by omega) hn

theorem progress_bounds (c n : Int) (h0 : 0 ≤ c) (h : c ≤ n) (hn : 0 < n) :
    0 ≤ Put.progress c n ∧ Put.progress c n ≤ 100 := by
  rw [progress_eq_ediv c n h0 (by omega)]
  constructor
  · exact Int.ediv_nonneg (by omega) (by omega)
  · apply Int.ediv_le_of_le_mul hn
    nlinarith

theorem progress_eq_hundred_iff (c n : Int) (h0 : 0 ≤ c) (h : c ≤ n) (hn : 0 < n) :
    Put.progress c n = 100 ↔ c = n := by
  rw [progress_eq_ediv c n h0 (by omega)]
  constructor
  · intro he
    by_contra hne
    have hlt : c < n := lt_of_le_of_ne h hne
    have : c * 100 / n < 100 := Int.ediv_lt_of_lt_mul hn (by nlinarith)
    omega
  · intro he
    subst he
    exact Int.mul_ediv_cancel_left 100 (by omega)

theorem progress_lt_hundred (c n : Int) (h0 : 0 ≤ c) (h : c + 1 ≤ n) :
    0 ≤ Put.progress c n ∧ Put.progress c n < 100 := by
  have hn : 0 < n := by omega
  have hb := progress_bounds c n h0 (by omega) hn
  refine ⟨hb.1, lt_of_le_of_ne hb.2 ?_⟩
  intro he
  have := (progress_eq_hundred_iff c n h0 (by omega) hn).mp he
  omega

/-! ### Termination -/

theorem sum_weight_set (l : List Task) (j : Nat) (t x : Task) (h : l[j]? = some t) :
    ((l.set j x).map Task.weight).sum + t.weight = (l.map Task.weight).sum + x.weight := by
  induction l generalizing j with
  | nil => simp at h
  | cons a l ih =>
    cases j with
    | zero =>
      simp only [List.getElem?_cons_zero, Option.some.injEq] at h
      subst h
      simp only [List.set_cons_zero, List.map_cons, List.sum_cons]
      omega
    | succ j =>
      simp only [List.getElem?_cons_succ] at h
      have := ih j h
      simp only [List.set_cons_succ, List.map_cons, List.sum_cons]
      omega

theorem sum_weight_eraseIdx (l : List Task) (j : Nat) (t : Task) (h : l[j]? = some t) :
    ((l.eraseIdx j).map Task.weight).sum + t.weight = (l.map Task.weight).sum := by
  induction l generalizing j with
  | nil => simp at h
  | cons a l ih =>
    cases j with
    | zero =>
      simp only [List.getElem?_cons_zero, Option.some.injEq] at h
      subst h
      simp only [List.eraseIdx_cons_zero, List.map_cons, List.sum_cons]
      omega
    | succ j =>
      simp only [List.getElem?_cons_succ] at h
      have := ih j h
      simp only [List.eraseIdx_cons_succ, List.map_cons, List.sum_cons]
      omega

theorem Task.weight_pos (t : Task) : 0 < t.weight := by
  unfold Task.weight
  split <;> omega

/-- A step of the loop uses up some of the weight. -/
theorem mainStep_weight (uploadCanceled : Nat → Bool) (tempFile : List Byte)
    (count lastBlockSize : Int) (blockList : List Int) (v : UploadVars)
    (hmain : v.main ≠ .waiting) :
    transferWeight blockList.length
        (Put.mainStep uploadCanceled tempFile count lastBlockSize blockList v) <
      transferWeight blockList.length v := by
  unfold Put.mainStep transferWeight mainWeight
  cases hm : v.main with
  | waiting => exact absurd hm hmain
  | ranging =>
    simp only
    cases hb : blockList[v.next]? with
    | none => simp only; omega
    | some p =>
      simp only
      split_ifs <;> simp only <;> omega
  | going =>
    simp only
    cases hb : blockList[v.next]? with
    | none => simp only; omega
    | some p =>
      simp only
      obtain ⟨hlt, _⟩ := List.getElem?_eq_some.mp hb
      simp only [List.map_append, List.sum_append, List.map_cons, List.map_nil, List.sum_cons,
        List.sum_nil, Task.weight]
      omega

/-- A step of a task in the pool uses up some of the weight. -/
theorem groupStep_weight (transfer : Nat → Nat → Except Err ResponseBody)
    (path uploadid : String) (len : Int) (n j : Nat) (v : UploadVars)
    (hj : j < v.running.length) :
    transferWeight n (Put.groupStep transfer path uploadid len j v) < transferWeight n v := by
  unfold Put.groupStep
  have hget : v.running[j]? = some v.running[j] := List.getElem?_eq_getElem hj
  generalize v.running[j] = t at hget
  rw [hget]
  simp only
  have hset := sum_weight_set v.running j t
  have herase := sum_weight_eraseIdx v.running j t hget
  obtain ⟨idx, partseq, file, attempt, pc⟩ := t
  cases pc with
  | uploading =>
    simp only [Put.taskStep]
    cases uploadSlice (transfer idx attempt) with
    | none =>
      simp only
      have := hset ⟨idx, partseq, file, attempt, .uploaded⟩ hget
      simp only [transferWeight, mainWeight, Task.weight] at this ⊢
      omega
    | some err =>
      simp only
      by_cases ha : attempt + 1 < 3
      · rw [if_pos ha]
        have := hset ⟨idx, partseq, file, attempt + 1, .uploading⟩ hget
        simp only [transferWeight, mainWeight, Task.weight] at this ⊢
        omega
      · rw [if_neg ha]
        simp only [transferWeight, mainWeight, Task.weight] at herase ⊢
        omega
  | uploaded =>
    simp only [Put.taskStep]
    have := hset ⟨idx, partseq, file, attempt, .loaded v.success⟩ hget
    simp only [transferWeight, mainWeight, Task.weight] at this ⊢
    omega
  | loaded s =>
    simp only [Put.taskStep]
    have := hset ⟨idx, partseq, file, attempt, .returning⟩ hget
    simp only [transferWeight, mainWeight, Task.weight] at this ⊢
    omega
  | returning =>
    simp only [Put.taskStep]
    simp only [transferWeight, mainWeight, Task.weight] at herase ⊢
    omega

/-- With fuel for the weight of the state the transfer phase runs to its end, whatever the
scheduler picks and whatever the width of the pool. -/
theorem transferRun_isSome (schedule : Nat → Nat) (uploadThread : Int)
    (transfer : Nat → Nat → Except Err ResponseBody) (uploadCanceled : Nat → Bool)
    (path uploadid : String) (tempFile : List Byte) (count lastBlockSize : Int)
    (blockList : List Int) :
    ∀ (fuel t : Nat) (v : UploadVars), transferWeight blockList.length v ≤ fuel →
      ∃ v1, Put.transferRun schedule uploadThread transfer uploadCanceled path uploadid
        tempFile count lastBlockSize blockList fuel t v = some v1 := by
  intro fuel
  induction fuel with
  | zero =>
    intro t v hw
    unfold Put.transferRun
    have hdone : transferDone v = true := by
      unfold transferWeight mainWeight at hw
      unfold transferDone
      cases hm : v.main with
      | ranging => rw [hm] at hw; simp only at hw; omega
      | going => rw [hm] at hw; simp only at hw; omega
      | waiting =>
        cases hr : v.running with
        | nil => simp
        | cons a l =>
          rw [hm, hr] at hw
          have := Task.weight_pos a
          simp only [List.map_cons, List.sum_cons] at hw
          omega
    rw [if_pos hdone]
    exact ⟨v, rfl⟩
  | succ fuel ih =>
    intro t v hw
    unfold Put.transferRun
    by_cases hdone : transferDone v = true
    · rw [if_pos hdone]; exact ⟨v, rfl⟩
    · rw [if_neg hdone]
      by_cases hen : mainEnabled uploadThread v = true
      · rw [if_pos hen]
        have hmain : v.main ≠ .waiting := by
          intro h
          unfold mainEnabled at hen
          rw [h] at hen
          simp at hen
        by_cases hc : schedule t % (v.running.length + 1) = 0
        · rw [if_pos hc]
          apply ih
          have := mainStep_weight uploadCanceled tempFile count lastBlockSize blockList v hmain
          omega
        · rw [if_neg hc]
          apply ih
          have hlt : schedule t % (v.running.length + 1) < v.running.length + 1 :=
            Nat.mod_lt _ (by omega)
          have := groupStep_weight transfer path uploadid (blockList.length : Int)
            blockList.length (schedule t % (v.running.length + 1) - 1) v (by omega)
          omega
      · rw [if_neg hen]
        have hpos : 0 < v.running.length := by
          by_contra hz
          have hnil : v.running = [] := List.eq_nil_of_length_eq_zero (by omega)
          unfold mainEnabled poolHasRoom at hen
          unfold transferDone at hdone
          rw [hnil] at hen hdone
          cases hm : v.main with
          | ranging => rw [hm] at hen; simp at hen
          | going =>
            rw [hm] at hen
            simp only [List.length_nil, Nat.cast_zero, decide_eq_true_eq] at hen
            omega
          | waiting => rw [hm] at hdone; simp at hdone
        apply ih
        have := groupStep_weight transfer path uploadid (blockList.length : Int)
          blockList.length (schedule t % v.running.length) v (Nat.mod_lt _ hpos)
        omega

/-! ### Invariants -/

/-- What holds at the start and is kept by every step of the loop and of every task holds
when the transfer phase has run. -/
theorem transferRun_induction (P : UploadVars → Prop) (schedule : Nat → Nat)
    (uploadThread : Int) (transfer : Nat → Nat → Except Err ResponseBody)
    (uploadCanceled : Nat → Bool) (path uploadid : String) (tempFile : List Byte)
    (count lastBlockSize : Int) (blockList : List Int)
    (hmain : ∀ v, P v → P (Put.mainStep uploadCanceled tempFile count lastBlockSize blockList v))
    (hgroup : ∀ j v, P v →
      P (Put.groupStep transfer path uploadid (blockList.length : Int) j v)) :
    ∀ (fuel t : Nat) (v v1 : UploadVars), P v →
      Put.transferRun schedule uploadThread transfer uploadCanceled path uploadid tempFile
        count lastBlockSize blockList fuel t v = some v1 → P v1 := by
  intro fuel
  induction fuel with
  | zero =>
    intro t v v1 hP hrun
    unfold Put.transferRun at hrun
    split_ifs at hrun
    · simp only [Option.some.injEq] at hrun
      rw [← hrun]; exact hP
  | succ fuel ih =>
    intro t v v1 hP hrun
    unfold Put.transferRun at hrun
    split_ifs at hrun
    · simp only [Option.some.injEq] at hrun
      rw [← hrun]; exact hP
    · exact ih _ _ _ (hmain v hP) hrun
    · exact ih _ _ _ (hgroup _ v hP) hrun
    · exact ih _ _ _ (hgroup _ v hP) hrun


/-- Every request of the transfer phase is an `uploadSlice` request for a listed slice with
the section of the staged file that `sliceRange` gives, and every task in the pool holds
that section. -/
theorem transferRun_calls (schedule : Nat → Nat) (uploadThread : Int)
    (transfer : Nat → Nat → Except Err ResponseBody) (uploadCanceled : Nat → Bool)
    (path uploadid : String) (tempFile : List Byte) (count lastBlockSize : Int)
    (blockList : List Int) (base : List Call) (fuel : Nat) (v1 : UploadVars)
    (hrun : Put.transferRun schedule uploadThread transfer uploadCanceled path uploadid
      tempFile count lastBlockSize blockList fuel 0 ⟨0, .ranging, 0, none, [], [], base⟩ =
        some v1) :
    ∃ extra, v1.calls = base ++ extra ∧
      ∀ c ∈ extra, ∃ partseq ∈ blockList, c = Call.uploadSlice path uploadid partseq
        (sectionRead tempFile (Put.sliceRange count lastBlockSize partseq).1
          (Put.sliceRange count lastBlockSize partseq).2) := by
  have key := transferRun_induction
    (fun v => (∃ extra, v.calls = base ++ extra ∧
      ∀ c ∈ extra, ∃ partseq ∈ blockList, c = Call.uploadSlice path uploadid partseq
        (sectionRead tempFile (Put.sliceRange count lastBlockSize partseq).1
          (Put.sliceRange count lastBlockSize partseq).2)) ∧
      ∀ t ∈ v.running, t.partseq ∈ blockList ∧
        t.file = sectionRead tempFile (Put.sliceRange count lastBlockSize t.partseq).1
          (Put.sliceRange count lastBlockSize t.partseq).2)
    schedule uploadThread transfer uploadCanceled path uploadid tempFile count lastBlockSize
    blockList ?_ ?_ fuel 0 _ v1 ?_ hrun
  · exact key.1
  · -- the loop
    intro v ⟨hcalls, htasks⟩
    unfold Put.mainStep
    cases v.main with
    | waiting => exact ⟨hcalls, htasks⟩
    | ranging =>
      simp only
      cases blockList[v.next]? with
      | none => exact ⟨hcalls, htasks⟩
      | some p =>
        simp only
        split_ifs <;> exact ⟨hcalls, htasks⟩
    | going =>
      simp only
      cases hb : blockList[v.next]? with
      | none => exact ⟨hcalls, htasks⟩
      | some p =>
        simp only
        refine ⟨hcalls, ?_⟩
        intro t ht
        rcases List.mem_append.mp ht with h | h
        · exact htasks t h
        · simp only [List.mem_singleton] at h
          subst h
          exact ⟨List.getElem?_mem hb, rfl⟩
  · -- a task
    intro j v ⟨⟨extra, hcalls, hall⟩, htasks⟩
    unfold Put.groupStep
    cases hget : v.running[j]? with
    | none => exact ⟨⟨extra, hcalls, hall⟩, htasks⟩
    | some t =>
      simp only
      have htmem : t ∈ v.running := List.getElem?_mem hget
      obtain ⟨hpin, hfile⟩ := htasks t htmem
      have hset : ∀ t1 : Task, t1.partseq = t.partseq → t1.file = t.file →
          ∀ x ∈ v.running.set j t1, x.partseq ∈ blockList ∧
            x.file = sectionRead tempFile (Put.sliceRange count lastBlockSize x.partseq).1
              (Put.sliceRange count lastBlockSize x.partseq).2 := by
        intro t1 hp hf x hx
        rcases List.mem_or_eq_of_mem_set hx with h | h
        · exact htasks x h
        · subst h
          rw [hp, hf]
          exact ⟨hpin, hfile⟩
      have herase : ∀ x ∈ v.running.eraseIdx j, x.partseq ∈ blockList ∧
            x.file = sectionRead tempFile (Put.sliceRange count lastBlockSize x.partseq).1
              (Put.sliceRange count lastBlockSize x.partseq).2 := by
        intro x hx
        exact htasks x (List.mem_of_mem_eraseIdx hx)
      have hcallsStep : ∀ s : TaskStep,
          s = Put.taskStep (transfer t.idx t.attempt) path uploadid t.partseq t.file
            v.success (blockList.length : Int) t.pc →
          ∃ extra1, v.calls ++ s.calls = base ++ extra1 ∧
            ∀ c ∈ extra1, ∃ partseq ∈ blockList, c = Call.uploadSlice path uploadid partseq
              (sectionRead tempFile (Put.sliceRange count lastBlockSize partseq).1
                (Put.sliceRange count lastBlockSize partseq).2) := by
        intro s hs
        refine ⟨extra ++ s.calls, by rw [hcalls, List.append_assoc], ?_⟩
        intro c hc
        rcases List.mem_append.mp hc with h | h
        · exact hall c h
        · refine ⟨t.partseq, hpin, ?_⟩
          rw [hs] at h
          unfold Put.taskStep at h
          rw [← hfile]
          split at h
          · split at h <;> simpa using h
          · simp at h
          · simp at h
          · simp at h
      have hc := hcallsStep _ rfl
      split
      · exact ⟨hc, hset _ rfl rfl⟩
      · split
        · exact ⟨hc, herase⟩
        · split_ifs
          · exact ⟨hc, hset _ rfl rfl⟩
          · exact ⟨hc, herase⟩
  · exact ⟨⟨[], by simp, by simp⟩, by simp⟩

/-- Every value passed to `up` in the transfer phase is `c * 100 / n` for a count `c` with
`0 ≤ c ≤ n - 1`: a task reads the count while it is itself in the pool and not yet
counted. -/
theorem transferRun_progress (schedule : Nat → Nat) (uploadThread : Int)
    (transfer : Nat → Nat → Except Err ResponseBody) (uploadCanceled : Nat → Bool)
    (path uploadid : String) (tempFile : List Byte) (count lastBlockSize : Int)
    (blockList : List Int) (base : List Call) (fuel : Nat) (v1 : UploadVars)
    (hrun : Put.transferRun schedule uploadThread transfer uploadCanceled path uploadid
      tempFile count lastBlockSize blockList fuel 0 ⟨0, .ranging, 0, none, [], [], base⟩ =
        some v1) :
    ∀ p ∈ v1.progress, ∃ c : Int, 0 ≤ c ∧ c + 1 ≤ (blockList.length : Int) ∧
      p = Put.progress c (blockList.length : Int) := by
  have key := transferRun_induction
    (fun v => (∀ p ∈ v.progress, ∃ c : Int, 0 ≤ c ∧ c + 1 ≤ (blockList.length : Int) ∧
        p = Put.progress c (blockList.length : Int)) ∧
      0 ≤ v.success ∧
      v.success + (v.running.length : Int) ≤ (v.next : Int) ∧
      v.next ≤ blockList.length ∧
      ∀ t ∈ v.running, ∀ s, t.pc = .loaded s → 0 ≤ s ∧ s + 1 ≤ (blockList.length : Int))
    schedule uploadThread transfer uploadCanceled path uploadid tempFile count lastBlockSize
    blockList ?_ ?_ fuel 0 _ v1 ?_ hrun
  · exact key.1
  · -- the loop
    intro v ⟨hprog, hs0, hsum, hnext, hload⟩
    unfold Put.mainStep
    cases v.main with
    | waiting => exact ⟨hprog, hs0, hsum, hnext, hload⟩
    | ranging =>
      simp only
      cases blockList[v.next]? with
      | none => exact ⟨hprog, hs0, hsum, hnext, hload⟩
      | some p =>
        simp only
        split_ifs <;> exact ⟨hprog, hs0, hsum, hnext, hload⟩
    | going =>
      simp only
      cases hb : blockList[v.next]? with
      | none => exact ⟨hprog, hs0, hsum, hnext, hload⟩
      | some p =>
        simp only
        obtain ⟨hlt, _⟩ := List.getElem?_eq_some.mp hb
        refine ⟨hprog, hs0, ?_, by omega, ?_⟩
        · simp only [List.length_append, List.length_singleton]
          push_cast
          omega
        · intro t ht s hpc
          rcases List.mem_append.mp ht with h | h
          · exact hload t h s hpc
          · simp only [List.mem_singleton] at h
            subst h
            simp at hpc
  · -- a task
    intro j v ⟨hprog, hs0, hsum, hnext, hload⟩
    unfold Put.groupStep
    cases hget : v.running[j]? with
    | none => exact ⟨hprog, hs0, hsum, hnext, hload⟩
    | some t =>
      simp only
      have htmem : t ∈ v.running := List.getElem?_mem hget
      obtain ⟨hj, _⟩ := List.getElem?_eq_some.mp hget
      have hlenpos : (1 : Int) ≤ (v.running.length : Int) := by
        have : 1 ≤ v.running.length := by omega
        exact_mod_cast this
      have hnextInt : (v.next : Int) ≤ (blockList.length : Int) := by exact_mod_cast hnext
      have hset : ∀ t1 : Task, (∀ s, t1.pc = .loaded s → 0 ≤ s ∧ s + 1 ≤ (blockList.length : Int)) →
          ∀ x ∈ v.running.set j t1, ∀ s, x.pc = .loaded s →
            0 ≤ s ∧ s + 1 ≤ (blockList.length : Int) := by
        intro t1 h1 x hx s hpc
        rcases List.mem_or_eq_of_mem_set hx with h | h
        · exact hload x h s hpc
        · subst h
          exact h1 s hpc
      have herase : ∀ x ∈ v.running.eraseIdx j, ∀ s, x.pc = .loaded s →
            0 ≤ s ∧ s + 1 ≤ (blockList.length : Int) := by
        intro x hx s hpc
        exact hload x (List.mem_of_mem_eraseIdx hx) s hpc
      have hlenErase : ((v.running.eraseIdx j).length : Int) = (v.running.length : Int) - 1 := by
        rw [List.length_eraseIdx, if_pos hj]
        have : 1 ≤ v.running.length := by omega
        push_cast [this]
        rfl
      obtain ⟨idx, partseq, file, attempt, pc⟩ := t
      cases pc with
      | uploading =>
        simp only [Put.taskStep]
        cases uploadSlice (transfer idx attempt) with
        | none =>
          simp only [List.append_nil, List.length_set]
          exact ⟨hprog, hs0, hsum, hnext, hset _ (by intro s h; simp at h)⟩
        | some err =>
          simp only [List.append_nil]
          split_ifs
          · simp only [List.length_set]
            exact ⟨hprog, hs0, hsum, hnext, hset _ (by intro s h; simp at h)⟩
          · refine ⟨hprog, hs0, ?_, hnext, herase⟩
            dsimp only
            rw [hlenErase]
            omega
      | uploaded =>
        simp only [Put.taskStep, List.append_nil, List.length_set]
        refine ⟨hprog, hs0, hsum, hnext, hset _ ?_⟩
        intro s h
        simp only [TaskPc.loaded.injEq] at h
        subst h
        exact ⟨hs0, by omega⟩
      | loaded s =>
        simp only [Put.taskStep, List.append_nil, List.length_set]
        refine ⟨?_, hs0, hsum, hnext, hset _ (by intro s h; simp at h)⟩
        intro p hp
        rcases List.mem_append.mp hp with h | h
        · exact hprog p h
        · simp only [List.mem_singleton] at h
          obtain ⟨h0, h1⟩ := hload _ htmem s rfl
          exact ⟨s, h0, h1, h⟩
      | returning =>
        simp only [Put.taskStep, List.append_nil]
        refine ⟨hprog, by omega, ?_, hnext, herase⟩
        rw [hlenErase]
        omega
  · simp


/-! ## `Put` after the hashing pass -/

theorem Put_eq_finish {File Obj : Type} (env : Env File Obj) (d : BaiduNetdisk)
    (dstDirPath : String) (stream : Stream) (data : List Byte) (h : HashBundle)
    (hstage : env.createTempFile = .ok data)
    (hh : Put.hashes env.md5 env.hashCanceled data stream.size = some (.ok h)) :
    Put env d dstDirPath stream = Put.finish env d dstDirPath stream data h := by
  unfold Put
  rw [hstage]
  simp only
  rw [hh]

/-- The transfer phase of `Put.finish` returns: `9 * n + 2` steps are enough for `n` listed
slices, under every scheduler and every pool width. -/
theorem finish_transfer_isSome (schedule : Nat → Nat) (uploadThread : Int)
    (transfer : Nat → Nat → Except Err ResponseBody) (uploadCanceled : Nat → Bool)
    (path uploadid : String) (tempFile : List Byte) (count lastBlockSize : Int)
    (blockList : List Int) (base : List Call) :
    ∃ v, Put.transferRun schedule uploadThread transfer uploadCanceled path uploadid tempFile
      count lastBlockSize blockList (9 * blockList.length + 2) 0
      ⟨0, .ranging, 0, none, [], [], base⟩ = some v := by
  apply transferRun_isSome
  simp [transferWeight, mainWeight]

/-- After the hashing pass `Put` returns. -/
theorem finish_isSome {File Obj : Type} (env : Env File Obj) (d : BaiduNetdisk)
    (dstDirPath : String) (stream : Stream) (data : List Byte) (h : HashBundle) :
    ∃ o, Put.finish env d dstDirPath stream data h = some o := by
  unfold Put.finish
  simp only
  cases env.post _ with
  | error err => exact ⟨_, rfl⟩
  | ok resp =>
    simp only
    by_cases hrt : resp.ReturnType = 2
    · rw [if_pos hrt]; exact ⟨_, rfl⟩
    · rw [if_neg hrt]
      obtain ⟨v, hv⟩ := finish_transfer_isSome env.schedule d.uploadThread env.transfer
        env.uploadCanceled (env.encodeURIComponent (env.join dstDirPath stream.name))
        resp.Uploadid data h.count h.lastBlockSize resp.BlockList
        [Call.precreate (env.encodeURIComponent (env.join dstDirPath stream.name))
          stream.size (marshalToString h.blockList) h.contentMd5 h.sliceMd5]
      rw [hv]
      simp only
      cases v.cause with
      | some err => exact ⟨_, rfl⟩
      | none =>
        simp only
        cases env.create _ with
        | error err => exact ⟨_, rfl⟩
        | ok newFile => exact ⟨_, rfl⟩

/-- The first request of `Put.finish` is the precreate request with the three hashes. -/
theorem finish_calls_head {File Obj : Type} (env : Env File Obj) (d : BaiduNetdisk)
    (dstDirPath : String) (stream : Stream) (data : List Byte) (h : HashBundle)
    (o : Outcome Obj) (ho : Put.finish env d dstDirPath stream data h = some o) :
    ∃ rest, o.calls =
      Call.precreate (env.encodeURIComponent (env.join dstDirPath stream.name)) stream.size
        (marshalToString h.blockList) h.contentMd5 h.sliceMd5 :: rest := by
  unfold Put.finish at ho
  simp only at ho
  cases hpost : env.post (Call.precreate (env.encodeURIComponent (env.join dstDirPath stream.name))
      stream.size (marshalToString h.blockList) h.contentMd5 h.sliceMd5) with
  | error err =>
    rw [hpost] at ho
    simp only [Option.some.injEq] at ho
    rw [← ho]; exact ⟨[], rfl⟩
  | ok resp =>
    rw [hpost] at ho
    simp only at ho
    by_cases hrt : resp.ReturnType = 2
    · rw [if_pos hrt] at ho
      simp only [Option.some.injEq] at ho
      rw [← ho]; exact ⟨[], rfl⟩
    · rw [if_neg hrt] at ho
      cases hrun : Put.transferRun env.schedule d.uploadThread env.transfer env.uploadCanceled
          (env.encodeURIComponent (env.join dstDirPath stream.name)) resp.Uploadid data h.count
          h.lastBlockSize resp.BlockList (9 * resp.BlockList.length + 2) 0
          ⟨0, .ranging, 0, none, [], [],
            [Call.precreate (env.encodeURIComponent (env.join dstDirPath stream.name))
              stream.size (marshalToString h.blockList) h.contentMd5 h.sliceMd5]⟩ with
      | none =>
        rw [hrun] at ho
        simp at ho
      | some v =>
        rw [hrun] at ho
        simp only at ho
        obtain ⟨extra, hcalls, _⟩ := transferRun_calls _ _ _ _ _ _ _ _ _ _ _ _ _ hrun
        split at ho
        · simp only [Option.some.injEq] at ho
          rw [← ho]
          exact ⟨extra, by rw [hcalls]; rfl⟩
        · split at ho
          · simp only [Option.some.injEq] at ho
            rw [← ho]
            exact ⟨extra ++ [_], by rw [hcalls]; rfl⟩
          · simp only [Option.some.injEq] at ho
            rw [← ho]
            exact ⟨extra ++ [_], by rw [hcalls]; rfl⟩

/-- Every slice transfer that `Put.finish` requests carries the section of the staged file
that `sliceRange` gives for its `partseq`. -/
theorem finish_uploadSlice_calls {File Obj : Type} (env : Env File Obj) (d : BaiduNetdisk)
    (dstDirPath : String) (stream : Stream) (data : List Byte) (h : HashBundle)
    (o : Outcome Obj) (ho : Put.finish env d dstDirPath stream data h = some o)
    (path uploadid : String) (partseq : Int) (file : List Byte)
    (hmem : Call.uploadSlice path uploadid partseq file ∈ o.calls) :
    file = sectionRead data (Put.sliceRange h.count h.lastBlockSize partseq).1
      (Put.sliceRange h.count h.lastBlockSize partseq).2 := by
  unfold Put.finish at ho
  simp only at ho
  cases hpost : env.post (Call.precreate (env.encodeURIComponent (env.join dstDirPath stream.name))
      stream.size (marshalToString h.blockList) h.contentMd5 h.sliceMd5) with
  | error err =>
    rw [hpost] at ho
    simp only [Option.some.injEq] at ho
    rw [← ho] at hmem
    simp at hmem
  | ok resp =>
    rw [hpost] at ho
    simp only at ho
    by_cases hrt : resp.ReturnType = 2
    · rw [if_pos hrt] at ho
      simp only [Option.some.injEq] at ho
      rw [← ho] at hmem
      simp at hmem
    · rw [if_neg hrt] at ho
      cases hrun : Put.transferRun env.schedule d.uploadThread env.transfer env.uploadCanceled
          (env.encodeURIComponent (env.join dstDirPath stream.name)) resp.Uploadid data h.count
          h.lastBlockSize resp.BlockList (9 * resp.BlockList.length + 2) 0
          ⟨0, .ranging, 0, none, [], [],
            [Call.precreate (env.encodeURIComponent (env.join dstDirPath stream.name))
              stream.size (marshalToString h.blockList) h.contentMd5 h.sliceMd5]⟩ with
      | none =>
        rw [hrun] at ho
        simp at ho
      | some v =>
        rw [hrun] at ho
        simp only at ho
        obtain ⟨extra, hcalls, hall⟩ := transferRun_calls _ _ _ _ _ _ _ _ _ _ _ _ _ hrun
        have hin : Call.uploadSlice path uploadid partseq file ∈ extra := by
          split at ho
          · simp only [Option.some.injEq] at ho
            rw [← ho, hcalls] at hmem
            simpa using hmem
          · split at ho
            · simp only [Option.some.injEq] at ho
              rw [← ho, hcalls] at hmem
              simpa using hmem
            · simp only [Option.some.injEq] at ho
              rw [← ho, hcalls] at hmem
              simpa using hmem
        obtain ⟨p, _, hc⟩ := hall _ hin
        injection hc with _ _ hp hf
        rw [hf, hp]

/-- A dedup answer ends `Put.finish` at once. -/
theorem finish_dedup {File Obj : Type} (env : Env File Obj) (d : BaiduNetdisk)
    (dstDirPath : String) (stream : Stream) (data : List Byte) (h : HashBundle)
    (resp : PrecreateResp File)
    (hpost : env.post (Call.precreate (env.encodeURIComponent (env.join dstDirPath stream.name))
      stream.size (marshalToString h.blockList) h.contentMd5 h.sliceMd5) = .ok resp)
    (hrt : resp.ReturnType = 2) :
    Put.finish env d dstDirPath stream data h =
      some ⟨.ok (env.fileToObj resp.File),
        [Call.precreate (env.encodeURIComponent (env.join dstDirPath stream.name)) stream.size
          (marshalToString h.blockList) h.contentMd5 h.sliceMd5], []⟩ := by
  unfold Put.finish
  simp only
  rw [hpost]
  simp only
  rw [if_pos hrt]

/-- The progress values of a run that reaches the transfer phase with `n` listed slices:
each is `c * 100 / n` for a count `c` with `0 ≤ c ≤ n - 1`. -/
theorem finish_progress {File Obj : Type} (env : Env File Obj) (d : BaiduNetdisk)
    (dstDirPath : String) (stream : Stream) (data : List Byte) (h : HashBundle)
    (resp : PrecreateResp File) (o : Outcome Obj)
    (hpost : env.post (Call.precreate (env.encodeURIComponent (env.join dstDirPath stream.name))
      stream.size (marshalToString h.blockList) h.contentMd5 h.sliceMd5) = .ok resp)
    (hrt : resp.ReturnType ≠ 2)
    (ho : Put.finish env d dstDirPath stream data h = some o) :
    ∀ p ∈ o.progress, ∃ c : Int, 0 ≤ c ∧ c + 1 ≤ (resp.BlockList.length : Int) ∧
      p = Put.progress c (resp.BlockList.length : Int) := by
  unfold Put.finish at ho
  simp only at ho
  rw [hpost] at ho
  simp only at ho
  rw [if_neg hrt] at ho
  cases hrun : Put.transferRun env.schedule d.uploadThread env.transfer env.uploadCanceled
      (env.encodeURIComponent (env.join dstDirPath stream.name)) resp.Uploadid data h.count
      h.lastBlockSize resp.BlockList (9 * resp.BlockList.length + 2) 0
      ⟨0, .ranging, 0, none, [], [],
        [Call.precreate (env.encodeURIComponent (env.join dstDirPath stream.name))
          stream.size (marshalToString h.blockList) h.contentMd5 h.sliceMd5]⟩ with
  | none =>
    rw [hrun] at ho
    simp at ho
  | some v =>
    rw [hrun] at ho
    simp only at ho
    have hp := transferRun_progress _ _ _ _ _ _ _ _ _ _ _ _ _ hrun
    split at ho
    · simp only [Option.some.injEq] at ho
      rw [← ho]; exact hp
    · split at ho
      · simp only [Option.some.injEq] at ho
        rw [← ho]; exact hp
      · simp only [Option.some.injEq] at ho
        rw [← ho]; exact hp


/-! ## Claims: slice arithmetic -/

theorem count_zero : Put.count 0 = 1 := by
  rw [count_eq_spec_of_le 0 (by norm_num) (by norm_num), specSliceCount_eq]
  norm_num

theorem count_ten_MiB : Put.count (10 * 1024 * 1024) = 3 := by
  rw [count_eq_spec_of_le _ (by norm_num) (by norm_num), specSliceCount_eq]
  norm_num

theorem count_four_MiB : Put.count (4 * 1024 * 1024) = 1 := by
  rw [count_eq_spec_of_le _ (by norm_num) (by norm_num), specSliceCount_eq]
  norm_num

theorem specSliceCount_two_pow_53_succ : specSliceCount 9007199254740993 = 2147483649 := by
  rw [specSliceCount_eq]
  norm_num

theorem lastBlockSize_two_pow_53_succ : Put.lastBlockSize 9007199254740993 = 1 := by
  rw [lastBlockSize_eq _ (by norm_num)]
  norm_num

theorem total_two_pow_53_succ :
    (Put.count 9007199254740993 - 1) * DefaultSliceSize + Put.lastBlockSize 9007199254740993 =
      9007199250546689 := by
  rw [count_two_pow_53_succ, lastBlockSize_two_pow_53_succ]
  norm_num [DefaultSliceSize]

/-- C1, at the failing input `streamSize = 2^53 + 1`: `float64(streamSize)` rounds to
`2^53`, so the count that `Put` computes is `2^31`, one less than the exact
`max(ceil(size / DefaultSliceSize), 1) = 2^31 + 1`. -/
theorem C1_count_below_exact_ceiling :
    Put.count 9007199254740993 = 2147483648 ∧
      specSliceCount 9007199254740993 = 2147483649 ∧
      Put.count 9007199254740993 ≠ specSliceCount 9007199254740993 := by
  refine ⟨count_two_pow_53_succ, specSliceCount_two_pow_53_succ, ?_⟩
  rw [count_two_pow_53_succ, specSliceCount_two_pow_53_succ]
  norm_num

/-- C2, at the failing input `streamSize = 2^53 + 1`: the slice lengths of the hashing loop
add up to `(2^31 - 1) * 4 MiB + 1 = 2^53 - 2^22 + 1`, which is one slice short of the
stream size. -/
theorem C2_slice_lengths_short_of_size :
    (Put.count 9007199254740993 - 1) * DefaultSliceSize + Put.lastBlockSize 9007199254740993 =
        9007199250546689 ∧
      (Put.count 9007199254740993 - 1) * DefaultSliceSize +
        Put.lastBlockSize 9007199254740993 ≠ 9007199254740993 := by
  rw [count_two_pow_53_succ, lastBlockSize_two_pow_53_succ]
  norm_num [DefaultSliceSize]

/-- C3: for every `streamSize ≥ 0` the last slice length lies in `[0, DefaultSliceSize]`,
is `streamSize mod DefaultSliceSize` when that is non-zero, is `DefaultSliceSize` when the
remainder is zero and `streamSize > 0`, and is `0` exactly when `streamSize = 0`; a stream
of exactly 4 MiB gives one slice of 4 MiB. -/
theorem C3_lastBlockSize (streamSize : Int) (h0 : 0 ≤ streamSize) :
    0 ≤ Put.lastBlockSize streamSize ∧
      Put.lastBlockSize streamSize ≤ DefaultSliceSize ∧
      Put.lastBlockSize streamSize =
        (if streamSize % DefaultSliceSize ≠ 0 then streamSize % DefaultSliceSize
         else if streamSize > 0 then DefaultSliceSize else 0) ∧
      (Put.lastBlockSize streamSize = 0 ↔ streamSize = 0) ∧
      Put.count (4 * 1024 * 1024) = 1 ∧
      Put.lastBlockSize (4 * 1024 * 1024) = 4 * 1024 * 1024 := by
  have hD : DefaultSliceSize = 2 ^ 22 := by norm_num [DefaultSliceSize]
  have hr0 := Int.emod_nonneg streamSize (show (2 ^ 22 : ℤ) ≠ 0 by norm_num)
  have hr1 := Int.emod_lt_of_pos streamSize (show (0 : ℤ) < 2 ^ 22 by norm_num)
  have hdm := Int.emod_add_ediv streamSize (2 ^ 22)
  have h4 : Put.lastBlockSize (4 * 1024 * 1024) = 4 * 1024 * 1024 := by
    rw [lastBlockSize_eq _ (by norm_num)]
    norm_num
  rw [lastBlockSize_eq streamSize h0, hD]
  refine ⟨?_, ?_, ?_, ?_, count_four_MiB, h4⟩
  · split_ifs <;> omega
  · split_ifs <;> omega
  · by_cases hr : streamSize % 2 ^ 22 = 0
    · by_cases hp : 0 < streamSize
      · rw [if_pos ⟨hp, hr⟩, if_neg (by simpa using hr), if_pos hp]
      · rw [if_neg (fun h => hp h.1), if_neg (by simpa using hr), if_neg hp]
        exact hr
    · rw [if_neg (fun h => hr h.2), if_pos hr]
  · constructor
    · intro h
      by_cases hc : 0 < streamSize ∧ streamSize % 2 ^ 22 = 0
      · rw [if_pos hc] at h
        norm_num at h
      · rw [if_neg hc] at h
        by_contra hne
        exact hc ⟨by omega, h⟩
    · intro h
      subst h
      norm_num

/-- Witness of C3 at a stream of 10 MiB: the last slice has 2 MiB. -/
theorem C3_lastBlockSize_witness :
    (0 : Int) ≤ 10485760 ∧ Put.lastBlockSize 10485760 = 2097152 := by
  have h := (C3_lastBlockSize 10485760 (by decide)).2.2.1
  norm_num [DefaultSliceSize] at h
  exact ⟨by decide, h⟩


/-! ## Claims: the hashing pass -/

theorem take_min_length (data : List Byte) (k : Nat) :
    data.take (min data.length k) = data.take k := by
  by_cases h : data.length ≤ k
  · rw [min_eq_left h, List.take_of_length_le (le_refl _), List.take_of_length_le h]
  · rw [min_eq_right (by omega)]

/-- C4: without cancellation, for every staged byte sequence whose length is the stream
size, the head hash sent as `slice-md5` in the precreate request is the digest of exactly
the first `min(size, 256 KiB)` bytes: over all iterations the limit writer in front of
`sliceMd5H2` has passed on the first 262144 bytes of the stream and nothing else. -/
theorem C4_head_hash_window {File Obj : Type} (env : Env File Obj) (d : BaiduNetdisk)
    (dstDirPath : String) (stream : Stream) (data : List Byte)
    (hstage : env.createTempFile = .ok data)
    (hsize : stream.size = (data.length : Int))
    (hn : stream.size < 2 ^ 63)
    (hcan : ∀ i, env.hashCanceled i = false) :
    ∃ h o, Put.hashes env.md5 env.hashCanceled data stream.size = some (.ok h) ∧
      h.slicemd5H2Write.w.written = data.take 262144 ∧
      h.sliceMd5 = hexEncodeToString (env.md5 (data.take (min data.length 262144))) ∧
      Put env d dstDirPath stream = some o ∧
      ∃ path blockListStr contentMd5 rest,
        o.calls = Call.precreate path stream.size blockListStr contentMd5
          (hexEncodeToString (env.md5 (data.take (min data.length 262144)))) :: rest := by
  rw [hsize] at hn
  have hh := hashes_eq env.md5 env.hashCanceled data hn hcan
  rw [← hsize] at hh
  generalize hb : (HashBundle.mk (Put.count stream.size) (Put.lastBlockSize stream.size)
    ((List.range (Put.count stream.size).toNat).map
      (sliceHash env.md5 data 4194304 (Put.count stream.size).toNat
        (Put.lastBlockSize stream.size).toNat))
    (hexEncodeToString (env.md5 (data.take
      ((Put.count stream.size - 1) * DefaultSliceSize + Put.lastBlockSize stream.size).toNat)))
    (hexEncodeToString (env.md5 (data.take 262144)))
    ⟨⟨data.take 262144⟩, 262144 - min stream.size 262144⟩
    ⟨data.take ((Put.count stream.size - 1) * DefaultSliceSize +
      Put.lastBlockSize stream.size).toNat⟩) = h at hh
  have hw : h.slicemd5H2Write.w.written = data.take 262144 := by rw [← hb]
  have hs : h.sliceMd5 = hexEncodeToString (env.md5 (data.take (min data.length 262144))) := by
    rw [← hb, take_min_length]
  obtain ⟨o, ho⟩ := finish_isSome env d dstDirPath stream data h
  obtain ⟨rest, hrest⟩ := finish_calls_head env d dstDirPath stream data h o ho
  refine ⟨h, o, hh, hw, hs, (Put_eq_finish env d dstDirPath stream data h hstage hh).trans ho,
    ?_⟩
  exact ⟨_, _, _, rest, by rw [hrest, hs]⟩

/-- Witness of C4 on the three-byte stream of `uploadEnv`. -/
theorem C4_head_hash_window_witness :
    ∃ h, Put.hashes uploadEnv.md5 uploadEnv.hashCanceled [1, 2, 3] smallStream.size =
        some (.ok h) ∧
      h.slicemd5H2Write.w.written = List.take 262144 [1, 2, 3] := by
  obtain ⟨h, _, hh, hw, _⟩ := C4_head_hash_window uploadEnv defaultDriver "d" smallStream
    [1, 2, 3] rfl rfl
    (by decide) (fun _ => rfl)
  exact ⟨h, hh, hw⟩

/-- C5, at the failing input of a staged sequence of `2^53 + 1` bytes (all zero): the loop
runs `2^31` iterations and `fileMd5H` is fed only the first `2^53 - 2^22 + 1` bytes, so
`contentMd5` is the digest of a proper prefix and not of the whole sequence. -/
theorem C5_content_hash_covers_less (md5 : List Byte → List Byte) :
    ∃ h, Put.hashes md5 (fun _ => false) (List.replicate 9007199254740993 0)
        9007199254740993 = some (.ok h) ∧
      h.count = 2147483648 ∧
      h.fileMd5H.written = List.replicate 9007199250546689 0 ∧
      h.contentMd5 = hexEncodeToString (md5 (List.replicate 9007199250546689 0)) ∧
      h.fileMd5H.written.length < (List.replicate 9007199254740993 (0 : Byte)).length := by
  have hlen : (((List.replicate 9007199254740993 (0 : Byte)).length : Nat) : Int) =
      9007199254740993 := by
    rw [List.length_replicate]
    rfl
  have hh := hashes_eq md5 (fun _ => false) (List.replicate 9007199254740993 (0 : Byte))
    (by rw [hlen]; norm_num) (fun _ => rfl)
  rw [hlen] at hh
  have htot : ((Put.count 9007199254740993 - 1) * DefaultSliceSize +
      Put.lastBlockSize 9007199254740993).toNat = 9007199250546689 := by
    rw [total_two_pow_53_succ]
    rfl
  have hmin : min 9007199250546689 9007199254740993 = 9007199250546689 := by norm_num
  have htake : List.take 9007199250546689 (List.replicate 9007199254740993 (0 : Byte)) =
      List.replicate 9007199250546689 0 := by
    rw [List.take_replicate, hmin]
  rw [htot, htake] at hh
  refine ⟨_, hh, count_two_pow_53_succ, rfl, rfl, ?_⟩
  rw [List.length_replicate, List.length_replicate]
  norm_num


/-! ## Claims: the transfer phase reads what was hashed -/

theorem total_le_nat (n : Nat) (hn : (n : Int) < 2 ^ 63) :
    ((Put.count n).toNat - 1) * 4194304 + (Put.lastBlockSize n).toNat ≤ n := by
  have h0 : (0 : Int) ≤ (n : Int) := Int.natCast_nonneg _
  have hc := count_pos _ h0
  have hl := lastBlockSize_nonneg _ h0
  have htot := total_le _ h0 hn
  have hD : DefaultSliceSize = 4194304 := by norm_num [DefaultSliceSize]
  rw [hD] at htot
  obtain ⟨c, hceq⟩ := Int.eq_ofNat_of_zero_le (show 0 ≤ Put.count n by omega)
  obtain ⟨L, hLeq⟩ := Int.eq_ofNat_of_zero_le hl
  rw [hceq, hLeq] at htot ⊢
  simp only [Int.toNat_ofNat]
  have hc1 : 1 ≤ c := by omega
  have : ((c : Int) - 1) = ((c - 1 : Nat) : Int) := by omega
  rw [this] at htot
  have h2 : (((c - 1) * 4194304 + L : Nat) : Int) ≤ (n : Int) := by
    push_cast
    exact htot
  exact_mod_cast h2

theorem wrapInt64_of_range (x : Int) (h0 : 0 ≤ x) (h : x < 2 ^ 63) : wrapInt64 x = x := by
  unfold wrapInt64
  omega

/-- Offset and length of slice `partseq`, for `0 ≤ partseq < count`: the section that the
upload task reads is the byte range the hashing loop read in iteration `partseq + 1`, and
it lies inside the file. -/
theorem sliceRange_spec (data : List Byte) (hn : (data.length : Int) < 2 ^ 63) (p : Nat)
    (hlt : (p : Int) < Put.count data.length) :
    Put.sliceRange (Put.count data.length) (Put.lastBlockSize data.length) (p : Int) =
        ((p : Int) * DefaultSliceSize,
          if (p : Int) + 1 = Put.count data.length then Put.lastBlockSize data.length
          else DefaultSliceSize) ∧
      ((if (p : Int) + 1 = Put.count data.length then Put.lastBlockSize data.length
          else DefaultSliceSize) =
        ((sliceLen 4194304 (Put.count data.length).toNat
          (Put.lastBlockSize data.length).toNat p : Nat) : Int)) ∧
      p * 4194304 + sliceLen 4194304 (Put.count data.length).toNat
        (Put.lastBlockSize data.length).toNat p ≤ data.length := by
  have h0 : (0 : Int) ≤ (data.length : Int) := Int.natCast_nonneg _
  have hc := count_pos _ h0
  have hl := lastBlockSize_nonneg _ h0
  have htot := total_le_nat data.length hn
  have hD : DefaultSliceSize = 4194304 := by norm_num [DefaultSliceSize]
  obtain ⟨c, hceq⟩ := Int.eq_ofNat_of_zero_le (show 0 ≤ Put.count data.length by omega)
  obtain ⟨L, hLeq⟩ := Int.eq_ofNat_of_zero_le hl
  rw [hceq, hLeq] at htot ⊢
  rw [hceq] at hlt
  simp only [Int.toNat_ofNat] at htot ⊢
  have hpc : p < c := by exact_mod_cast hlt
  have hin := slice_in_file 4194304 c L p data.length hpc htot
  have hlen : (if (p : Int) + 1 = (c : Int) then (L : Int) else DefaultSliceSize) =
      ((sliceLen 4194304 c L p : Nat) : Int) := by
    unfold sliceLen
    by_cases h : p + 1 = c
    · have h' : (p : Int) + 1 = (c : Int) := by exact_mod_cast h
      rw [if_pos h', if_pos h]
    · have h' : ¬ ((p : Int) + 1 = (c : Int)) := by
        intro hh; exact h (by exact_mod_cast hh)
      rw [if_neg h', if_neg h, hD]
      rfl
  refine ⟨?_, hlen, hin⟩
  unfold Put.sliceRange
  simp only
  rw [wrapInt64_of_range]
  · rw [hD]; omega
  · rw [hD]
    have : ((p * 4194304 : Nat) : Int) < 2 ^ 63 := by
      have : ((p * 4194304 : Nat) : Int) ≤ (data.length : Int) := by
        exact_mod_cast (by omega : p * 4194304 ≤ data.length)
      omega
    push_cast at this
    exact this

/-- C6: without cancellation, for a staged sequence whose length is the stream size and
every `partseq` with `0 ≤ partseq < count`, the upload task reads offset
`partseq * DefaultSliceSize` and length `DefaultSliceSize`, or `lastBlockSize` when
`partseq + 1 = count`; the range lies inside `[0, size)`, the section reader delivers
exactly that many bytes, their digest is `blockList[partseq]`, and every `uploadSlice`
request that `Put` sends for `partseq` carries exactly these bytes. -/
theorem C6_upload_reads_hashed_range {File Obj : Type} (env : Env File Obj)
    (d : BaiduNetdisk) (dstDirPath : String) (stream : Stream) (data : List Byte)
    (partseq : Int)
    (hstage : env.createTempFile = .ok data)
    (hsize : stream.size = (data.length : Int))
    (hn : stream.size < 2 ^ 63)
    (hcan : ∀ i, env.hashCanceled i = false)
    (h0 : 0 ≤ partseq) (hlt : partseq < Put.count stream.size) :
    ∃ h o, Put.hashes env.md5 env.hashCanceled data stream.size = some (.ok h) ∧
      Put env d dstDirPath stream = some o ∧
      h.count = Put.count stream.size ∧
      h.lastBlockSize = Put.lastBlockSize stream.size ∧
      Put.sliceRange h.count h.lastBlockSize partseq =
        (partseq * DefaultSliceSize,
          if partseq + 1 = h.count then h.lastBlockSize else DefaultSliceSize) ∧
      0 ≤ (Put.sliceRange h.count h.lastBlockSize partseq).1 ∧
      (Put.sliceRange h.count h.lastBlockSize partseq).1 +
        (Put.sliceRange h.count h.lastBlockSize partseq).2 ≤ stream.size ∧
      ((sectionRead data (Put.sliceRange h.count h.lastBlockSize partseq).1
        (Put.sliceRange h.count h.lastBlockSize partseq).2).length : Int) =
          (Put.sliceRange h.count h.lastBlockSize partseq).2 ∧
      h.blockList[partseq.toNat]? = some (hexEncodeToString (env.md5
        (sectionRead data (Put.sliceRange h.count h.lastBlockSize partseq).1
          (Put.sliceRange h.count h.lastBlockSize partseq).2))) ∧
      ∀ path uploadid file, Call.uploadSlice path uploadid partseq file ∈ o.calls →
        file = sectionRead data (Put.sliceRange h.count h.lastBlockSize partseq).1
          (Put.sliceRange h.count h.lastBlockSize partseq).2 := by
  rw [hsize] at hn hlt ⊢
  have hh := hashes_eq env.md5 env.hashCanceled data hn hcan
  obtain ⟨p, hp⟩ := Int.eq_ofNat_of_zero_le h0
  subst hp
  obtain ⟨hrange, hlen, hin⟩ := sliceRange_spec data hn p hlt
  have hD : DefaultSliceSize = 4194304 := by norm_num [DefaultSliceSize]
  have hpc : p < (Put.count data.length).toNat := by
    have := count_pos (data.length : Int) (Int.natCast_nonneg _)
    omega
  have hsec : sectionRead data ((p : Int) * DefaultSliceSize)
      (if (p : Int) + 1 = Put.count data.length then Put.lastBlockSize data.length
        else DefaultSliceSize) =
      (data.drop (p * 4194304)).take (sliceLen 4194304 (Put.count data.length).toNat
        (Put.lastBlockSize data.length).toNat p) := by
    unfold sectionRead
    have hnn : ¬ ((p : Int) * 4194304 < 0) := by
      omega
    rw [hlen, hD, if_neg hnn]
    have : ((p : Int) * 4194304).toNat = p * 4194304 := by
      have : ((p : Int) * 4194304) = ((p * 4194304 : Nat) : Int) := by push_cast; ring
      rw [this, Int.toNat_ofNat]
    rw [this, Int.toNat_ofNat]
  have hseclen : ((data.drop (p * 4194304)).take (sliceLen 4194304
      (Put.count data.length).toNat (Put.lastBlockSize data.length).toNat p)).length =
      sliceLen 4194304 (Put.count data.length).toNat (Put.lastBlockSize data.length).toNat p := by
    rw [List.length_take, List.length_drop]
    omega
  generalize hb : (HashBundle.mk (Put.count data.length) (Put.lastBlockSize data.length)
    ((List.range (Put.count data.length).toNat).map
      (sliceHash env.md5 data 4194304 (Put.count data.length).toNat
        (Put.lastBlockSize data.length).toNat))
    (hexEncodeToString (env.md5 (data.take
      ((Put.count data.length - 1) * DefaultSliceSize + Put.lastBlockSize data.length).toNat)))
    (hexEncodeToString (env.md5 (data.take 262144)))
    ⟨⟨data.take 262144⟩, 262144 - min (data.length : Int) 262144⟩
    ⟨data.take ((Put.count data.length - 1) * DefaultSliceSize +
      Put.lastBlockSize data.length).toNat⟩) = h at hh
  have hcount : h.count = Put.count data.length := by rw [← hb]
  have hlast : h.lastBlockSize = Put.lastBlockSize data.length := by rw [← hb]
  have hbl : h.blockList = (List.range (Put.count data.length).toNat).map
      (sliceHash env.md5 data 4194304 (Put.count data.length).toNat
        (Put.lastBlockSize data.length).toNat) := by rw [← hb]
  have hh' : Put.hashes env.md5 env.hashCanceled data stream.size = some (.ok h) := by
    rw [hsize]; exact hh
  obtain ⟨o, ho⟩ := finish_isSome env d dstDirPath stream data h
  refine ⟨h, o, hh, (Put_eq_finish env d dstDirPath stream data h hstage hh').trans ho, hcount,
    hlast, ?_, ?_, ?_, ?_, ?_, ?_⟩
  · rw [hcount, hlast, hrange]
  · rw [hcount, hlast, hrange, hD]
    show (0 : Int) ≤ (p : Int) * 4194304
    omega
  · rw [hcount, hlast, hrange]
    dsimp only
    rw [hlen, hD]
    have : ((p * 4194304 + sliceLen 4194304 (Put.count data.length).toNat
        (Put.lastBlockSize data.length).toNat p : Nat) : Int) ≤ (data.length : Int) := by
      exact_mod_cast hin
    push_cast at this
    exact this
  · rw [hcount, hlast, hrange]
    dsimp only
    rw [hsec, hseclen, hlen]
  · rw [hcount, hlast, hrange]
    dsimp only
    rw [hsec, Int.toNat_ofNat, hbl, List.getElem?_map, List.getElem?_range hpc]
    rfl
  · intro path uploadid file hmem
    have := finish_uploadSlice_calls env d dstDirPath stream data h o ho path uploadid (p : Int)
      file hmem
    rw [hcount, hlast] at this ⊢
    exact this

/-- Witness of C6 on the three-byte stream of `uploadEnv`, slice `0`. -/
theorem C6_upload_reads_hashed_range_witness :
    ∃ h, Put.hashes uploadEnv.md5 uploadEnv.hashCanceled [1, 2, 3] smallStream.size =
        some (.ok h) ∧
      Put.sliceRange h.count h.lastBlockSize 0 =
        (0 * DefaultSliceSize, if (0 : Int) + 1 = h.count then h.lastBlockSize
          else DefaultSliceSize) := by
  obtain ⟨h, _, hh, _, _, _, hr, _⟩ := C6_upload_reads_hashed_range uploadEnv defaultDriver "d"
    smallStream [1, 2, 3] 0 rfl rfl (by decide) (fun _ => rfl) (le_refl _)
    (by
      have : Put.count smallStream.size = 1 := by
        have h3 : smallStream.size = 3 := rfl
        rw [h3, count_eq_spec_of_le 3 (by norm_num) (by norm_num), specSliceCount_eq]
        norm_num
      rw [this]
      norm_num)
  exact ⟨h, hh, hr⟩


/-! ## Claims: dedup answer, `uploadSlice`, `Init`, progress -/

/-- The hashing pass on the three-byte stream of the concrete environments returns. -/
theorem smallStream_hashes :
    ∃ h, Put.hashes uploadEnv.md5 uploadEnv.hashCanceled [1, 2, 3] smallStream.size =
      some (.ok h) :=
  ⟨_, hashes_eq uploadEnv.md5 uploadEnv.hashCanceled [1, 2, 3] (by decide) (fun _ => rfl)⟩

/-- C7: whenever the precreate request succeeds with `return_type = 2`, `Put` returns the
file descriptor of the precreate response without error, and the precreate request is the
only request it has sent: no `uploadSlice` and no `create`, whatever `block_list` the
response carries. -/
theorem C7_dedup_skips_transfer_and_create {File Obj : Type} (env : Env File Obj)
    (d : BaiduNetdisk) (dstDirPath : String) (stream : Stream) (data : List Byte)
    (h : HashBundle)
    (resp : PrecreateResp File)
    (hstage : env.createTempFile = .ok data)
    (hh : Put.hashes env.md5 env.hashCanceled data stream.size = some (.ok h))
    (hpost : env.post (Call.precreate (env.encodeURIComponent (env.join dstDirPath stream.name))
      stream.size (marshalToString h.blockList) h.contentMd5 h.sliceMd5) = .ok resp)
    (hrt : resp.ReturnType = 2) :
    ∃ o, Put env d dstDirPath stream = some o ∧
      o.result = .ok (env.fileToObj resp.File) ∧
      o.calls = [Call.precreate (env.encodeURIComponent (env.join dstDirPath stream.name))
        stream.size (marshalToString h.blockList) h.contentMd5 h.sliceMd5] ∧
      (∀ path uploadid partseq file, Call.uploadSlice path uploadid partseq file ∉ o.calls) ∧
      (∀ rawPath size uploadid blockListStr,
        Call.create rawPath size uploadid blockListStr ∉ o.calls) ∧
      o.progress = [] := by
  refine ⟨_, (Put_eq_finish env d dstDirPath stream data h hstage hh).trans
    (finish_dedup env d dstDirPath stream data h resp hpost hrt), rfl, rfl, ?_, ?_, rfl⟩
  · intro path uploadid partseq file hmem
    simp at hmem
  · intro rawPath size uploadid blockListStr hmem
    simp at hmem

/-- Witness of C7 on `dedupEnv`, whose precreate answer has `return_type = 2` and a
non-empty `block_list`. -/
theorem C7_dedup_skips_transfer_and_create_witness :
    ∃ o, Put dedupEnv defaultDriver "d" smallStream = some o ∧ o.result = .ok 7 ∧
      o.calls.length = 1 := by
  obtain ⟨h, hh⟩ := smallStream_hashes
  obtain ⟨o, ho, hres, hcalls, _⟩ := C7_dedup_skips_transfer_and_create dedupEnv defaultDriver
    "d" smallStream [1, 2, 3] h ⟨2, 7, "", [0]⟩ rfl hh rfl rfl
  exact ⟨o, ho, hres, by rw [hcalls]; rfl⟩

/-- C8: for a slice-transfer response received without transport error, `uploadSlice`
returns an error exactly when `error_code` or `errno` reads non-zero, and `nil` exactly
when both read zero; a field that is missing reads as zero. -/
theorem C8_uploadSlice_error_iff (body : ResponseBody) :
    (uploadSlice (.ok body) ≠ none ↔
        (jsonGetInt body "error_code" ≠ 0 ∨ jsonGetInt body "errno" ≠ 0)) ∧
      (uploadSlice (.ok body) = none ↔
        (jsonGetInt body "error_code" = 0 ∧ jsonGetInt body "errno" = 0)) ∧
      jsonGetInt (body.filter fun f => f.1 ≠ "errno") "errno" = 0 ∧
      jsonGetInt (body.filter fun f => f.1 ≠ "error_code") "error_code" = 0 ∧
      uploadSlice (.ok []) = none := by
  have hmiss : ∀ (key : String) (b : ResponseBody),
      jsonGetInt (b.filter fun f => f.1 ≠ key) key = 0 := by
    intro key b
    unfold jsonGetInt
    induction b with
    | nil => rfl
    | cons f rest ih =>
      by_cases hk : f.1 = key
      · have : (List.filter (fun f => decide (f.1 ≠ key)) (f :: rest)) =
            List.filter (fun f => decide (f.1 ≠ key)) rest := by
          simp [List.filter_cons, hk]
        rw [this]
        exact ih
      · have : (List.filter (fun f => decide (f.1 ≠ key)) (f :: rest)) =
            f :: List.filter (fun f => decide (f.1 ≠ key)) rest := by
          simp [List.filter_cons, hk]
        rw [this]
        obtain ⟨k, v⟩ := f
        have hk' : ¬ (key = k) := fun e => hk e.symm
        simp only [List.lookup, beq_iff_eq, hk']
        have : (key == k) = false := by simpa using hk'
        rw [this]
        exact ih
  refine ⟨?_, ?_, hmiss "errno" body, hmiss "error_code" body, rfl⟩
  · unfold uploadSlice
    simp only
    by_cases hc : jsonGetInt body "error_code" ≠ 0 ∨ jsonGetInt body "errno" ≠ 0
    · rw [if_pos hc]; simp [hc]
    · rw [if_neg hc]; simp [hc]
  · unfold uploadSlice
    simp only
    by_cases hc : jsonGetInt body "error_code" ≠ 0 ∨ jsonGetInt body "errno" ≠ 0
    · rw [if_pos hc]
      simp only [reduceCtorEq, false_iff, not_and]
      intro h1 h2
      rcases hc with h | h
      · exact h h1
      · exact h h2
    · rw [if_neg hc]
      simp only [true_iff]
      constructor
      · by_contra h; exact hc (Or.inl h)
      · by_contra h; exact hc (Or.inr h)


/-- On an error `strconv.Atoi` returns `0` or a bound of `int64`, never a value in
`[1, 32]`. -/
theorem Atoi_error_value (s : String) (h : (Atoi s).2 = true) :
    (Atoi s).1 < 1 ∨ 32 < (Atoi s).1 := by
  unfold Atoi at h ⊢
  generalize (splitSign s.toList).1 = neg at h ⊢
  generalize (splitSign s.toList).2 = ds at h ⊢
  unfold parseSigned at h ⊢
  by_cases h1 : ds = []
  · rw [if_pos h1]; left; norm_num
  · rw [if_neg h1] at h ⊢
    cases hp : parseDigits ds 0 with
    | none => simp only; left; norm_num
    | some un =>
      rw [hp] at h
      simp only at h ⊢
      by_cases h2 : neg = false ∧ 2 ^ 63 ≤ un
      · rw [if_pos h2]; right; norm_num
      · rw [if_neg h2] at h ⊢
        by_cases h3 : neg = true ∧ 2 ^ 63 < un
        · rw [if_pos h3]; left; norm_num
        · rw [if_neg h3] at h
          simp at h

/-- C9: after `Init` the worker count lies in `[1, 32]`: it is the parsed integer when
`UploadThread` parses without error to a value in `[1, 32]` (the string is then kept), and
otherwise the default `3` with `UploadThread` rewritten to `"3"`; a value out of range is
not clamped to the nearest bound (`"33"` and `"0"` both give `3`). -/
theorem C9_Init_uploadThread (d : BaiduNetdisk) (get : Option Err) :
    1 ≤ (Init d get).1.uploadThread ∧
      (Init d get).1.uploadThread ≤ 32 ∧
      (Init d get).1.uploadThread =
        (if (Atoi d.UploadThread).2 = false ∧ 1 ≤ (Atoi d.UploadThread).1 ∧
            (Atoi d.UploadThread).1 ≤ 32
          then (Atoi d.UploadThread).1 else 3) ∧
      (Init d get).1.UploadThread =
        (if (Atoi d.UploadThread).2 = false ∧ 1 ≤ (Atoi d.UploadThread).1 ∧
            (Atoi d.UploadThread).1 ≤ 32
          then d.UploadThread else "3") ∧
      (Init { d with UploadThread := "33" } get).1.uploadThread = 3 ∧
      (Init { d with UploadThread := "0" } get).1.uploadThread = 3 ∧
      (Init { d with UploadThread := "32" } get).1.uploadThread = 32 ∧
      (Init { d with UploadThread := "1" } get).1.uploadThread = 1 := by
  have key : ∀ (d : BaiduNetdisk),
      (Init d get).1.uploadThread =
        (if (Atoi d.UploadThread).2 = false ∧ 1 ≤ (Atoi d.UploadThread).1 ∧
            (Atoi d.UploadThread).1 ≤ 32
          then (Atoi d.UploadThread).1 else 3) ∧
      (Init d get).1.UploadThread =
        (if (Atoi d.UploadThread).2 = false ∧ 1 ≤ (Atoi d.UploadThread).1 ∧
            (Atoi d.UploadThread).1 ≤ 32
          then d.UploadThread else "3") := by
    intro d
    unfold Init
    simp only
    by_cases hr : (Atoi d.UploadThread).1 < 1 ∨ (Atoi d.UploadThread).1 > 32
    · rw [if_pos hr]
      have hneg : ¬ ((Atoi d.UploadThread).2 = false ∧ 1 ≤ (Atoi d.UploadThread).1 ∧
          (Atoi d.UploadThread).1 ≤ 32) := by
        rintro ⟨_, h1, h2⟩
        rcases hr with h | h <;> omega
      rw [if_neg hneg, if_neg hneg]
      exact ⟨rfl, rfl⟩
    · rw [if_neg hr]
      have hok : (Atoi d.UploadThread).2 = false := by
        by_contra hb
        have hb' : (Atoi d.UploadThread).2 = true := by simpa using hb
        have := Atoi_error_value d.UploadThread hb'
        exact hr (by rcases this with h | h; exact Or.inl h; exact Or.inr h)
      have hpos : (Atoi d.UploadThread).2 = false ∧ 1 ≤ (Atoi d.UploadThread).1 ∧
          (Atoi d.UploadThread).1 ≤ 32 := ⟨hok, by omega, by omega⟩
      rw [if_pos hpos, if_pos hpos]
      exact ⟨rfl, rfl⟩
  have h33 : Atoi "33" = (33, false) := by decide
  have h0 : Atoi "0" = (0, false) := by decide
  have h32 : Atoi "32" = (32, false) := by decide
  have h1 : Atoi "1" = (1, false) := by decide
  refine ⟨?_, ?_, (key d).1, (key d).2, ?_, ?_, ?_, ?_⟩
  · rw [(key d).1]
    split_ifs with h
    · exact h.2.1
    · norm_num
  · rw [(key d).1]
    split_ifs with h
    · exact h.2.2
    · norm_num
  · rw [(key _).1]
    simp only [h33]
    norm_num
  · rw [(key _).1]
    simp only [h0]
    norm_num
  · rw [(key _).1]
    simp only [h32]
    norm_num
  · rw [(key _).1]
    simp only [h1]
    norm_num

/-- C10, at two failing inputs. A one-slice upload that succeeds (`uploadEnv`: precreate
lists slice `0`, its transfer and the create request succeed): `Put` returns the created
file and has called `up` once, with `0`, so the callback has not reached `100`; line 242
reads `threadG.Success()` inside the task, before the task has returned to the group and
is counted. A three-slice upload on a pool of width two under `raceSchedule`: the values
passed to `up` are `0, 33, 0` in call order, which is not non-decreasing; the first task
reads the count `0` and calls `up` only after a later task has read `1` and called `up`. -/
theorem C10_progress_short_of_hundred_and_out_of_order :
    (∃ o, Put uploadEnv defaultDriver "d" smallStream = some o ∧ o.result = .ok 9 ∧
      o.progress = [0] ∧ (100 : Int) ∉ o.progress) ∧
    (∃ v, Put.transferRun raceSchedule 2 (fun _ _ => .ok []) (fun _ => false) "p" "id"
        [1, 2, 3] 1 3 [0, 1, 2] (9 * 3 + 2) 0 ⟨0, .ranging, 0, none, [], [], []⟩ = some v ∧
      v.cause = none ∧ v.success = 3 ∧ v.progress = [0, 33, 0]) := by
  constructor
  · obtain ⟨h, hh⟩ := smallStream_hashes
    have hf : Put.finish uploadEnv defaultDriver "d" smallStream [1, 2, 3] h =
        some ⟨.ok 9,
          [Call.precreate "d/f" 3 (marshalToString h.blockList) h.contentMd5 h.sliceMd5,
            Call.uploadSlice "d/f" "id" 0 (sectionRead [1, 2, 3]
              (Put.sliceRange h.count h.lastBlockSize 0).1
              (Put.sliceRange h.count h.lastBlockSize 0).2),
            Call.create "d/f" 3 "id" (marshalToString h.blockList)], [0]⟩ := by
      simp [Put.finish, uploadEnv, defaultDriver, smallStream, Put.transferRun, transferDone,
        mainEnabled, poolHasRoom, Put.mainStep, Put.groupStep, Put.taskStep, uploadSlice,
        jsonGetInt, Put.progress]
    refine ⟨_, (Put_eq_finish uploadEnv defaultDriver "d" smallStream [1, 2, 3] h rfl hh).trans
      hf, rfl, rfl, ?_⟩
    show (100 : Int) ∉ [0]
    decide
  · refine ⟨⟨3, .waiting, 3, none, [], [0, 33, 0],
      [Call.uploadSlice "p" "id" 0 (sectionRead [1, 2, 3] (Put.sliceRange 1 3 0).1
          (Put.sliceRange 1 3 0).2),
        Call.uploadSlice "p" "id" 1 (sectionRead [1, 2, 3] (Put.sliceRange 1 3 1).1
          (Put.sliceRange 1 3 1).2),
        Call.uploadSlice "p" "id" 2 (sectionRead [1, 2, 3] (Put.sliceRange 1 3 2).1
          (Put.sliceRange 1 3 2).2)]⟩, ?_, rfl, rfl, rfl⟩
    simp [Put.transferRun, raceSchedule, transferDone, mainEnabled, poolHasRoom, Put.mainStep,
      Put.groupStep, Put.taskStep, uploadSlice, jsonGetInt, Put.progress]
    decide


/-! ## The slice arithmetic and the hashes up to `2 ^ 53` bytes -/

/-- For every stream size in `[0, 2^53]` the count that `Put` computes is the exact
`max(ceil(size / DefaultSliceSize), 1)`; it is `1` for an empty stream and `3` for
10 MiB. -/
theorem count_exact_up_to_two_pow_53 (streamSize : Int) (h0 : 0 ≤ streamSize)
    (hn : streamSize ≤ 2 ^ 53) :
    Put.count streamSize = specSliceCount streamSize ∧
      Put.count 0 = 1 ∧ Put.count (10 * 1024 * 1024) = 3 :=
  ⟨count_eq_spec_of_le streamSize h0 hn, count_zero, count_ten_MiB⟩

/-- The exact count at 10 MiB. -/
theorem count_exact_up_to_two_pow_53_witness :
    Put.count 10485760 = specSliceCount 10485760 :=
  (count_exact_up_to_two_pow_53 10485760 (by decide) (by decide)).1

theorem total_eq_of_le (n : Int) (h0 : 0 ≤ n) (hn : n ≤ 2 ^ 53) :
    (Put.count n - 1) * DefaultSliceSize + Put.lastBlockSize n = n := by
  rcases total_cases n h0 (by omega) with h | ⟨hbig, _⟩
  · exact h
  · omega

/-- For every stream size in `[0, 2^53]` the slice lengths of the hashing loop add up to the
stream size: `(count - 1) * DefaultSliceSize + lastBlockSize = streamSize`. -/
theorem slice_lengths_sum_up_to_two_pow_53 (streamSize : Int) (h0 : 0 ≤ streamSize)
    (hn : streamSize ≤ 2 ^ 53) :
    (Put.count streamSize - 1) * DefaultSliceSize + Put.lastBlockSize streamSize =
      streamSize :=
  total_eq_of_le streamSize h0 hn

/-- The slice lengths at 10 MiB add up to 10 MiB. -/
theorem slice_lengths_sum_up_to_two_pow_53_witness :
    (Put.count 10485760 - 1) * DefaultSliceSize + Put.lastBlockSize 10485760 = 10485760 :=
  slice_lengths_sum_up_to_two_pow_53 10485760 (by decide) (by decide)

/-- Without cancellation, for every staged sequence of at most `2^53` bytes the hashing pass
returns a block list with `count` entries, entry `p` (from zero) being the hexadecimal
digest of the bytes of slice `p`, and `contentMd5` is the digest of the whole sequence. -/
theorem hashes_up_to_two_pow_53 (md5 : List Byte → List Byte) (isCanceled : Int → Bool)
    (data : List Byte) (hn : (data.length : Int) ≤ 2 ^ 53)
    (hcan : ∀ i, isCanceled i = false) :
    ∃ h, Put.hashes md5 isCanceled data data.length = some (.ok h) ∧
      h.count = Put.count data.length ∧
      (h.blockList.length : Int) = h.count ∧
      (∀ p : Nat, (p : Int) < h.count →
        h.blockList[p]? = some (hexEncodeToString (md5 (sectionRead data
          ((p : Int) * DefaultSliceSize)
          (if (p : Int) + 1 = h.count then h.lastBlockSize else DefaultSliceSize))))) ∧
      h.contentMd5 = hexEncodeToString (md5 data) := by
  have hn63 : (data.length : Int) < 2 ^ 63 := by omega
  have hnn : (0 : Int) ≤ (data.length : Int) := Int.natCast_nonneg _
  have hh := hashes_eq md5 isCanceled data hn63 hcan
  have hc := count_pos _ hnn
  have hD : DefaultSliceSize = 4194304 := by norm_num [DefaultSliceSize]
  have htot := total_eq_of_le _ hnn hn
  refine ⟨_, hh, rfl, ?_, ?_, ?_⟩
  · simp only [List.length_map, List.length_range]
    exact Int.toNat_of_nonneg (by omega)
  · intro p hp
    have hp' : (p : Int) < Put.count data.length := hp
    obtain ⟨_, hlen, hin⟩ := sliceRange_spec data hn63 p hp'
    have hpc : p < (Put.count data.length).toNat := by omega
    simp only
    rw [List.getElem?_map, List.getElem?_range hpc]
    unfold sectionRead
    have hnneg : ¬ ((p : Int) * DefaultSliceSize < 0) := by rw [hD]; omega
    rw [if_neg hnneg, hlen, hD, Int.toNat_ofNat]
    have : ((p : Int) * 4194304).toNat = p * 4194304 := by
      have : ((p : Int) * 4194304) = ((p * 4194304 : Nat) : Int) := by push_cast; ring
      rw [this, Int.toNat_ofNat]
    rw [this]
    rfl
  · simp only
    rw [htot, Int.toNat_ofNat, List.take_of_length_le (le_refl _)]

/-- For the empty stream the single block hash, the content hash and the head hash are all
the digest of the empty input. -/
theorem hashes_up_to_two_pow_53_witness :
    ∃ h, Put.hashes id (fun _ => false) [] (([] : List Byte).length : Int) = some (.ok h) ∧
      h.contentMd5 = hexEncodeToString (id []) := by
  obtain ⟨h, hh, _, _, _, hc⟩ := hashes_up_to_two_pow_53 id (fun _ => false) [] (by decide)
    (fun _ => rfl)
  exact ⟨h, hh, hc⟩


/-! ## The progress values in every run -/

/-- In every run of `Put` that reaches the transfer phase, under every scheduler and every
pool width, each value passed to `up` is `c * 100 / n` (integer division) for a count `c`
with `0 ≤ c ≤ n - 1`, where `n` is the number of listed slices; so each value lies in
`[0, 100)` and `100` is never passed. -/
theorem progress_values_below_hundred {File Obj : Type} (env : Env File Obj)
    (d : BaiduNetdisk) (dstDirPath : String) (stream : Stream) (data : List Byte)
    (h : HashBundle) (resp : PrecreateResp File)
    (hstage : env.createTempFile = .ok data)
    (hh : Put.hashes env.md5 env.hashCanceled data stream.size = some (.ok h))
    (hpost : env.post (Call.precreate (env.encodeURIComponent (env.join dstDirPath stream.name))
      stream.size (marshalToString h.blockList) h.contentMd5 h.sliceMd5) = .ok resp)
    (hrt : resp.ReturnType ≠ 2) :
    ∃ o, Put env d dstDirPath stream = some o ∧
      (∀ p ∈ o.progress, ∃ c : Int, 0 ≤ c ∧ c + 1 ≤ (resp.BlockList.length : Int) ∧
        p = c * 100 / (resp.BlockList.length : Int)) ∧
      (∀ p ∈ o.progress, 0 ≤ p ∧ p < 100) ∧
      (100 : Int) ∉ o.progress := by
  obtain ⟨o, ho⟩ := finish_isSome env d dstDirPath stream data h
  have hp := finish_progress env d dstDirPath stream data h resp o hpost hrt ho
  have hlt : ∀ p ∈ o.progress, 0 ≤ p ∧ p < 100 := by
    intro p hmem
    obtain ⟨c, h0, h1, rfl⟩ := hp p hmem
    exact progress_lt_hundred c _ h0 h1
  refine ⟨o, (Put_eq_finish env d dstDirPath stream data h hstage hh).trans ho, ?_, hlt, ?_⟩
  · intro p hmem
    obtain ⟨c, h0, h1, rfl⟩ := hp p hmem
    exact ⟨c, h0, h1, progress_eq_ediv c _ h0 (by omega)⟩
  · intro hmem
    have := (hlt 100 hmem).2
    omega

/-- The progress values of the one-slice upload of `uploadEnv` lie below `100`. -/
theorem progress_values_below_hundred_witness :
    ∃ o, Put uploadEnv defaultDriver "d" smallStream = some o ∧ (100 : Int) ∉ o.progress := by
  obtain ⟨h, hh⟩ := smallStream_hashes
  obtain ⟨o, ho, _, _, hnot⟩ := progress_values_below_hundred uploadEnv defaultDriver "d"
    smallStream [1, 2, 3] h ⟨1, 7, "id", [0]⟩ rfl hh rfl (by decide)
  exact ⟨o, ho, hnot⟩


end baidu_netdisk
